import Mathlib

/-!
Shallow embedding of `cdns.py` (a forwarding DNS server) and proofs about it.

Conventions of the embedding:
* Python `bytes` values are `List Nat`, every element < 256 where the source
  guarantees it.
* Python `str` values are `List Char`.
* Python exceptions are modelled with `Except Err`.  `Err.indexError` is a
  `bytes` index out of range, `Err.structError` a failing `struct.pack` or
  `struct.unpack`, `Err.recursionLimit` the interpreter recursion limit,
  `Err.loopDetected` the "Unable to decode domain: loop detected" exception,
  `Err.unicodeDecodeError` / `Err.unicodeEncodeError` failing ascii codecs,
  `Err.valueError` a `ValueError` (tuple unpacking mismatch or `bytes([n])`
  with `n > 255`), and `Err.noneTypeError` the crash that follows when a
  cache lookup unexpectedly yields `None`.
* `time.time()` is an explicit `now : Nat` parameter; recursion depth is an
  explicit `fuel : Nat` parameter.
-/

inductive Err where
  | indexError
  | structError
  | recursionLimit
  | loopDetected
  | unicodeDecodeError
  | unicodeEncodeError
  | valueError
  | noneTypeError
  deriving DecidableEq, Repr

/-- Python `"." .join` on a list of strings (strings as `List Char`). -/
def joinDots : List (List Char) → List Char
  | [] => []
  | [l] => l
  | l :: ls => l ++ '.' :: joinDots ls

/-- Python `str.split(".")` (strings as `List Char`).  `[] ↦ [[]]`, matching
`"".split(".") == [""]`. -/
def splitOnDot : List Char → List (List Char)
  | [] => [[]]
  | c :: rest =>
    if c = '.' then [] :: splitOnDot rest
    else
      match splitOnDot rest with
      | [] => [[c]]
      | l :: ls => (c :: l) :: ls

/-- `bytes([n])` for one label length plus `label.encode("ascii")`:
produces `len(label)` followed by the code points, or the exception the
source would raise (`ValueError` for a length byte out of range evaluated
first, then `UnicodeEncodeError` for non-ascii characters). -/
def encodeLabel (l : List Char) : Except Err (List Nat) :=
  if l.length ≤ 255 then
    if l.all (fun c => c.toNat < 128) then
      .ok (l.length :: l.map Char.toNat)
    else .error .unicodeEncodeError
  else .error .valueError

/-- The list comprehension of `encode_name_uncompressed`, concatenated. -/
def encodeLabels : List (List Char) → Except Err (List Nat)
  | [] => .ok []
  | l :: ls => do
    let e ← encodeLabel l
    let rest ← encodeLabels ls
    return e ++ rest

/-- `encode_name_uncompressed` from the source: split on dots, emit each
label length-prefixed, append the zero terminator. -/
def encode_name_uncompressed (name : List Char) : Except Err (List Nat) := do
  let encoded ← encodeLabels (splitOnDot name)
  return encoded ++ [0]

/-- The byte string `encode_name_uncompressed` produces for a well-formed
label list (used to state packing lemmas). -/
def encLabelsBytes : List (List Char) → List Nat
  | [] => []
  | l :: ls => l.length :: l.map Char.toNat ++ encLabelsBytes ls

/-- The wire bytes of a whole uncompressed name. -/
def encN (name : List Char) : List Nat :=
  encLabelsBytes (splitOnDot name) ++ [0]

/-- `buf[idx : idx + size].decode("ascii")`: the Python slice silently clamps
at the end of the buffer; decoding fails on a byte ≥ 128. -/
def sliceDecodeAscii (buf : List Nat) (start size : Nat) : Except Err (List Char) :=
  let bs := (buf.drop start).take size
  if bs.all (fun b => b < 128) then .ok (bs.map Char.ofNat)
  else .error .unicodeDecodeError

/-- `struct.unpack` support: the exact `k`-byte slice `buf[idx : idx+k]`;
`struct.error` when fewer than `k` bytes remain. -/
def readExact (buf : List Nat) (idx k : Nat) : Except Err (List Nat) :=
  if idx + k ≤ buf.length then .ok ((buf.drop idx).take k)
  else .error .structError

/-- The body of `decode_name`: the `while True:` loop together with the
recursive pointer resolution.  `fuel` models the interpreter's recursion
limit and bounds both loop steps and recursion depth; `visited` and
`labels` are the local variables of the source.  Crucially, the recursive
call `decode_name(buf, pointer)` of the source starts from a fresh empty
`visited` set, and this model does the same. -/
def decodeNameGo (buf : List Nat) : Nat → Nat → List Nat → List (List Char) →
    Except Err (List Char × Nat)
  | 0, _, _, _ => .error .recursionLimit
  | fuel + 1, idx, visited, labels =>
    if idx ∈ visited then .error .loopDetected
    else
      match buf[idx]? with
      | none => .error .indexError
      | some length =>
        if length = 0 then .ok (joinDots labels, idx + 1)
        else if length &&& 0xC0 = 0xC0 then
          match readExact buf idx 2 with
          | .error e => .error e
          | .ok bs =>
            let pointer := (bs.getD 0 0 * 256 + bs.getD 1 0) &&& 0x3FFF
            match decodeNameGo buf fuel pointer [] [] with
            | .error e => .error e
            | .ok (domain, _) => .ok (joinDots (labels ++ [domain]), idx + 2)
        else
          match sliceDecodeAscii buf (idx + 1) length with
          | .error e => .error e
          | .ok lbl => decodeNameGo buf fuel (idx + 1 + length) (idx :: visited) (labels ++ [lbl])

/-- `decode_name(buf, start_idx)` from the source. -/
def decode_name (buf : List Nat) (start_idx fuel : Nat) : Except Err (List Char × Nat) :=
  decodeNameGo buf fuel start_idx [] []

/-- `struct.pack("!H", v)`: two big-endian bytes, `struct.error` if the value
does not fit in 16 bits. -/
def toBytes2 (v : Nat) : Except Err (List Nat) :=
  if v < 65536 then .ok [v / 256, v % 256] else .error .structError

/-- `struct.pack("!I", v)`: four big-endian bytes, `struct.error` if the value
does not fit in 32 bits. -/
def toBytes4 (v : Nat) : Except Err (List Nat) :=
  if v < 4294967296 then
    .ok [v / 16777216, v / 65536 % 256, v / 256 % 256, v % 256]
  else .error .structError

/-- Recombine two big-endian bytes (`struct.unpack("!H", ...)`). -/
def beWord (b0 b1 : Nat) : Nat := b0 * 256 + b1

/-- Dataclass `DNSHeader` from the source. -/
structure DNSHeader where
  id : Nat := 0
  qr : Nat := 0
  opcode : Nat := 0
  aa : Nat := 0
  tc : Nat := 0
  rd : Nat := 0
  ra : Nat := 0
  z : Nat := 0
  rcode : Nat := 0
  qdcount : Nat := 0
  ancount : Nat := 0
  nscount : Nat := 0
  arcount : Nat := 0
  deriving DecidableEq, Repr

/-- The 16-bit flags word built by `DNSHeader.pack`, with the source's
shift-and-or expression. -/
def DNSHeader.flagsWord (h : DNSHeader) : Nat :=
  (h.qr <<< 15) ||| (h.opcode <<< 11) ||| (h.aa <<< 10) ||| (h.tc <<< 9) |||
    (h.rd <<< 8) ||| (h.ra <<< 7) ||| (h.z <<< 4) ||| h.rcode

/-- `DNSHeader.pack`: `struct.pack("!HHHHHH", id, flags, qdcount, ancount,
nscount, arcount)`. -/
def DNSHeader.pack (h : DNSHeader) : Except Err (List Nat) := do
  let b0 ← toBytes2 h.id
  let b1 ← toBytes2 h.flagsWord
  let b2 ← toBytes2 h.qdcount
  let b3 ← toBytes2 h.ancount
  let b4 ← toBytes2 h.nscount
  let b5 ← toBytes2 h.arcount
  return b0 ++ b1 ++ b2 ++ b3 ++ b4 ++ b5

/-- `DNSHeader.from_buffer`: `struct.unpack("!HHHHHH", buf[:12])` followed by
the mask-and-shift extraction of each flag field. -/
def DNSHeader.from_buffer (buf : List Nat) : Except Err DNSHeader :=
  if 12 ≤ (buf.take 12).length then
    let b := buf.take 12
    let flags := beWord (b.getD 2 0) (b.getD 3 0)
    .ok
      { id := beWord (b.getD 0 0) (b.getD 1 0)
        qr := (flags >>> 15) &&& 0x1
        opcode := (flags >>> 11) &&& 0xF
        aa := (flags >>> 10) &&& 0x1
        tc := (flags >>> 9) &&& 0x1
        rd := (flags >>> 8) &&& 0x1
        ra := (flags >>> 7) &&& 0x1
        z := (flags >>> 4) &&& 0x7
        rcode := flags &&& 0xF
        qdcount := beWord (b.getD 4 0) (b.getD 5 0)
        ancount := beWord (b.getD 6 0) (b.getD 7 0)
        nscount := beWord (b.getD 8 0) (b.getD 9 0)
        arcount := beWord (b.getD 10 0) (b.getD 11 0) }
  else .error .structError

/-- Dataclass `DNSQuestion` from the source. -/
structure DNSQuestion where
  decoded_name : List Char := []
  type_ : Nat := 1
  class_ : Nat := 1
  deriving DecidableEq, Repr

/-- `DNSQuestion.pack(encoded_name)`: name bytes then `!HH` type and class. -/
def DNSQuestion.pack (q : DNSQuestion) (encoded_name : List Nat) : Except Err (List Nat) := do
  let t ← toBytes2 q.type_
  let c ← toBytes2 q.class_
  return encoded_name ++ t ++ c

/-- Dataclass `DNSAnswer` from the source; `rdata` is raw bytes. -/
structure DNSAnswer where
  decoded_name : List Char := []
  type_ : Nat := 1
  class_ : Nat := 1
  ttl : Nat := 0
  rdlength : Nat := 4
  rdata : List Nat := []
  deriving DecidableEq, Repr

/-- `DNSAnswer.pack(encoded_name)`: name, `!HHIH` fields, then the raw
`rdata` bytes. -/
def DNSAnswer.pack (a : DNSAnswer) (encoded_name : List Nat) : Except Err (List Nat) := do
  let t ← toBytes2 a.type_
  let c ← toBytes2 a.class_
  let ttlb ← toBytes4 a.ttl
  let rdl ← toBytes2 a.rdlength
  return encoded_name ++ t ++ c ++ ttlb ++ rdl ++ a.rdata

/-- The question loop of `pack_all_uncompressed`. -/
def packQuestionsU : List DNSQuestion → Except Err (List Nat)
  | [] => .ok []
  | q :: qs => do
    let en ← encode_name_uncompressed q.decoded_name
    let qb ← q.pack en
    let rest ← packQuestionsU qs
    return qb ++ rest

/-- The answer loop of `pack_all_uncompressed`. -/
def packAnswersU : List DNSAnswer → Except Err (List Nat)
  | [] => .ok []
  | a :: as => do
    let en ← encode_name_uncompressed a.decoded_name
    let ab ← a.pack en
    let rest ← packAnswersU as
    return ab ++ rest

/-- `pack_all_uncompressed(header, questions, answers)`. -/
def pack_all_uncompressed (h : DNSHeader) (questions : List DNSQuestion)
    (answers : List DNSAnswer) : Except Err (List Nat) := do
  let hb ← h.pack
  let qb ← packQuestionsU questions
  let ab ← packAnswersU answers
  return hb ++ qb ++ ab

/-- Lookup in the `name_offset_map` association list (a Python dict keyed by
decoded names). -/
def lookupName (m : List (List Char × Nat)) (name : List Char) : Option Nat :=
  match m.find? (fun e => e.1 = name) with
  | some e => some e.2
  | none => none

/-- The question loop of `pack_all_compressed`: threads the growing response
and the `name_offset_map`.  A repeated name becomes the 2-byte pointer
`0xC000 | offset`; a first occurrence is encoded in full and its offset
(`len(response)` before appending) recorded. -/
def packQuestionsC (m : List (List Char × Nat)) (response : List Nat) :
    List DNSQuestion → Except Err (List Nat × List (List Char × Nat))
  | [] => .ok (response, m)
  | q :: qs => do
    match lookupName m q.decoded_name with
    | some off => do
      let en ← toBytes2 (0xC000 ||| off)
      let qb ← q.pack en
      packQuestionsC m (response ++ qb) qs
    | none => do
      let en ← encode_name_uncompressed q.decoded_name
      let m' := m ++ [(q.decoded_name, response.length)]
      let qb ← q.pack en
      packQuestionsC m' (response ++ qb) qs

/-- The answer loop of `pack_all_compressed`. -/
def packAnswersC (m : List (List Char × Nat)) (response : List Nat) :
    List DNSAnswer → Except Err (List Nat × List (List Char × Nat))
  | [] => .ok (response, m)
  | a :: as => do
    match lookupName m a.decoded_name with
    | some off => do
      let en ← toBytes2 (0xC000 ||| off)
      let ab ← a.pack en
      packAnswersC m (response ++ ab) as
    | none => do
      let en ← encode_name_uncompressed a.decoded_name
      let m' := m ++ [(a.decoded_name, response.length)]
      let ab ← a.pack en
      packAnswersC m' (response ++ ab) as

/-- `pack_all_compressed(header, questions, answers)`. -/
def pack_all_compressed (h : DNSHeader) (questions : List DNSQuestion)
    (answers : List DNSAnswer) : Except Err (List Nat) := do
  let hb ← h.pack
  let (r1, m1) ← packQuestionsC [] hb questions
  let (r2, _) ← packAnswersC m1 r1 answers
  return r2

/-- One iteration of the question loop of `unpack_all`: `decode_name`, then
`struct.unpack("!HH", buf[idx : idx+4])`. -/
def unpackQuestion1 (buf : List Nat) (fuel idx : Nat) :
    Except Err (DNSQuestion × Nat) := do
  let (decoded_name, i1) ← decode_name buf idx fuel
  let tc ← readExact buf i1 4
  return (⟨decoded_name, beWord (tc.getD 0 0) (tc.getD 1 0),
    beWord (tc.getD 2 0) (tc.getD 3 0)⟩, i1 + 4)

/-- The question loop of `unpack_all`, iterated `header.qdcount` times. -/
def unpackQuestionsGo (buf : List Nat) (fuel : Nat) :
    Nat → Nat → Except Err (List DNSQuestion × Nat)
  | idx, 0 => .ok ([], idx)
  | idx, n + 1 => do
    let (q, i1) ← unpackQuestion1 buf fuel idx
    let (qs, e) ← unpackQuestionsGo buf fuel i1 n
    return (q :: qs, e)

/-- One iteration of the answer loop of `unpack_all`: name, `!HH` type and
class, `!I` ttl, `!H` rdlength, then the rdata slice `buf[idx : idx+rdlength]`
(which, being a Python slice, silently clamps at the end of the buffer). -/
def unpackAnswer1 (buf : List Nat) (fuel idx : Nat) :
    Except Err (DNSAnswer × Nat) := do
  let (decoded_name, i1) ← decode_name buf idx fuel
  let tc ← readExact buf i1 4
  let ttlb ← readExact buf (i1 + 4) 4
  let ttl := ((ttlb.getD 0 0 * 256 + ttlb.getD 1 0) * 256 + ttlb.getD 2 0) * 256 + ttlb.getD 3 0
  let rdl ← readExact buf (i1 + 8) 2
  let rdlength := beWord (rdl.getD 0 0) (rdl.getD 1 0)
  let rdata := (buf.drop (i1 + 10)).take rdlength
  return (⟨decoded_name, beWord (tc.getD 0 0) (tc.getD 1 0),
    beWord (tc.getD 2 0) (tc.getD 3 0), ttl, rdlength, rdata⟩, i1 + 10 + rdlength)

/-- The answer loop of `unpack_all`, iterated `header.ancount` times. -/
def unpackAnswersGo (buf : List Nat) (fuel : Nat) :
    Nat → Nat → Except Err (List DNSAnswer × Nat)
  | idx, 0 => .ok ([], idx)
  | idx, n + 1 => do
    let (a, i1) ← unpackAnswer1 buf fuel idx
    let (as, e) ← unpackAnswersGo buf fuel i1 n
    return (a :: as, e)

/-- `unpack_all(buf)` plus the final value of the source's `idx` variable
(kept for stating how much of the buffer the parse consumed).  The answers
component is `none` exactly when the source returns the 2-tuple
`(header, questions)`. -/
def unpack_allWithEnd (buf : List Nat) (fuel : Nat) :
    Except Err (DNSHeader × List DNSQuestion × Option (List DNSAnswer) × Nat) := do
  let header ← DNSHeader.from_buffer (buf.take 12)
  let (questions, i1) ← unpackQuestionsGo buf fuel 12 header.qdcount
  let (answers, e) ← unpackAnswersGo buf fuel i1 header.ancount
  return (header, questions, if header.ancount = 0 then none else some answers, e)

/-- `unpack_all(buf)` from the source. -/
def unpack_all (buf : List Nat) (fuel : Nat) :
    Except Err (DNSHeader × List DNSQuestion × Option (List DNSAnswer)) :=
  (unpack_allWithEnd buf fuel).map (fun r => (r.1, r.2.1, r.2.2.1))

/-- Association-list lookup modelling `key in dict` / `dict[key]`. -/
def lookupData {K V : Type} [DecidableEq K] : List (K × V × Nat) → K → Option (V × Nat)
  | [], _ => none
  | e :: rest, k => if e.1 = k then some e.2 else lookupData rest k

/-- `del dict[key]`: drop the entry for a key. -/
def removeData {K V : Type} [DecidableEq K] : List (K × V × Nat) → K → List (K × V × Nat)
  | [], _ => []
  | e :: rest, k => if e.1 = k then removeData rest k else e :: removeData rest k

/-- `dict[key] = value`: replace in place when the key exists, else append. -/
def setData {K V : Type} [DecidableEq K] : List (K × V × Nat) → K → V × Nat → List (K × V × Nat)
  | [], k, vn => [(k, vn.1, vn.2)]
  | e :: rest, k, vn =>
    if e.1 = k then (k, vn.1, vn.2) :: setData rest k vn else e :: setData rest k vn

/-- `TimedCache`: a Python dict whose values carry an absolute expiry time,
modelled as an association list in insertion order with unique keys. -/
structure TimedCache (K V : Type) where
  data : List (K × V × Nat)
  deriving DecidableEq, Repr

/-- Raw dict lookup `self.data[key]` (no expiry logic). -/
def TimedCache.find? {K V : Type} [DecidableEq K] (c : TimedCache K V) (k : K) :
    Option (V × Nat) :=
  lookupData c.data k

/-- `TimedCache.set(key, value, ttl)`: `self.data[key] = (value, time.time() + ttl)`,
overwriting in place when the key exists (dict assignment semantics). -/
def TimedCache.set {K V : Type} [DecidableEq K] (c : TimedCache K V) (k : K)
    (v : V) (ttl now : Nat) : TimedCache K V :=
  ⟨setData c.data k (v, now + ttl)⟩

/-- `TimedCache.get(key)` at time `now`: absent keys give `None`; an entry
with `expiry < now` is deleted and gives `None`; otherwise the value is
returned.  The possibly-mutated cache is returned alongside. -/
def TimedCache.get {K V : Type} [DecidableEq K] (c : TimedCache K V) (k : K)
    (now : Nat) : Option V × TimedCache K V :=
  match lookupData c.data k with
  | none => (none, c)
  | some (v, expiry) =>
    if expiry < now then (none, ⟨removeData c.data k⟩)
    else (some v, c)

/-- `key in cache` (`__contains__`): `self.get(key) != None`, together with the
cache mutation that the underlying `get` may perform. -/
def TimedCache.containsM {K V : Type} [DecidableEq K] (c : TimedCache K V)
    (k : K) (now : Nat) : Bool × TimedCache K V :=
  match c.get k now with
  | (some _, c') => (true, c')
  | (none, c') => (false, c')

/-- Python `list.insert(i, x)`: insert before position `i`, clamping to an
append when `i` is past the end. -/
def pyInsert {α : Type} (i : Nat) (x : α) (l : List α) : List α :=
  l.take i ++ x :: l.drop i

/-- A dotted-quad IPv4 address as four octets. -/
structure IPv4 where
  o1 : Nat
  o2 : Nat
  o3 : Nat
  o4 : Nat
  deriving DecidableEq, Repr

/-- `socket.inet_aton`: the 4 network-order (big-endian) bytes of the
address. -/
def inet_aton (ip : IPv4) : List Nat := [ip.o1, ip.o2, ip.o3, ip.o4]

/-- The numeric value of an IPv4 address (most significant octet first). -/
def ipv4Nat (ip : IPv4) : Nat :=
  ((ip.o1 * 256 + ip.o2) * 256 + ip.o3) * 256 + ip.o4

/-- The configuration a `ServerManager` carries: blocklist patterns, redirect
address and default blocking TTL. -/
structure RouterCfg where
  blocklist : List (List Char)
  redirect_ip : IPv4
  default_blocking_ttl : Nat

/-- The classification loop of `handle_dns_query` (lines 515-524): walk the
questions with their indices, recording cached indices, blocked indices and
the questions to forward.  The cache-membership test can mutate the cache
(lazy expiry), so the cache is threaded through.  `fnm` models
`fnmatch.fnmatch(name, pattern)`. -/
def classifyGo (fnm : List Char → List Char → Bool) (blocklist : List (List Char))
    (now : Nat) :
    TimedCache DNSQuestion DNSAnswer → Nat → List DNSQuestion →
    List DNSQuestion × List Nat × List Nat × TimedCache DNSQuestion DNSAnswer
  | c, _, [] => ([], [], [], c)
  | c, i, q :: rest =>
    match c.containsM q now with
    | (true, c1) =>
      let (nq, ci, bi, c2) := classifyGo fnm blocklist now c1 (i + 1) rest
      (nq, i :: ci, bi, c2)
    | (false, c1) =>
      if blocklist.any (fun loc => fnm q.decoded_name loc) then
        let (nq, ci, bi, c2) := classifyGo fnm blocklist now c1 (i + 1) rest
        (nq, ci, i :: bi, c2)
      else
        let (nq, ci, bi, c2) := classifyGo fnm blocklist now c1 (i + 1) rest
        (q :: nq, ci, bi, c2)

/-- The cached-question splice loop (lines 562-565): for each cached index,
insert the original question and its cached answer at that index.  A `get`
that comes back `None` would leave `None` in the answer list and crash
shortly after in the source; the model surfaces that as `noneTypeError`. -/
def spliceCachedGo (qs : List DNSQuestion) (now : Nat) :
    List Nat → List DNSQuestion → List DNSAnswer →
    TimedCache DNSQuestion DNSAnswer →
    Except Err (List DNSQuestion × List DNSAnswer × TimedCache DNSQuestion DNSAnswer)
  | [], rq, ra, c => .ok (rq, ra, c)
  | i :: is, rq, ra, c =>
    let q := qs.getD i {}
    match c.get q now with
    | (some a, c1) => spliceCachedGo qs now is (pyInsert i q rq) (pyInsert i a ra) c1
    | (none, _) => .error .noneTypeError

/-- The fake answer built for a blocked question (lines 572-580): name and
type from the question, the class field also from the question's *type*,
the configured blocking TTL, and the redirect address as rdata. -/
def blockedAnswer (cfg : RouterCfg) (q : DNSQuestion) : DNSAnswer :=
  ⟨q.decoded_name, q.type_, q.type_, cfg.default_blocking_ttl, 4,
    inet_aton cfg.redirect_ip⟩

/-- The blocked-question splice loop (lines 569-584). -/
def spliceBlockedGo (qs : List DNSQuestion) (cfg : RouterCfg) :
    List Nat → List DNSQuestion → List DNSAnswer →
    List DNSQuestion × List DNSAnswer
  | [], rq, ra => (rq, ra)
  | i :: is, rq, ra =>
    let q := qs.getD i {}
    spliceBlockedGo qs cfg is (pyInsert i q rq) (pyInsert i (blockedAnswer cfg q) ra)

/-- The final caching loop (lines 595-599): for each original question zipped
with the final answers, insert into the cache unless already present; the
membership test itself may delete an expired entry. -/
def cacheUpdateGo (now : Nat) :
    TimedCache DNSQuestion DNSAnswer → List (DNSQuestion × DNSAnswer) →
    TimedCache DNSQuestion DNSAnswer
  | c, [] => c
  | c, (q, a) :: rest =>
    match c.containsM q now with
    | (true, c1) => cacheUpdateGo now c1 rest
    | (false, c1) => cacheUpdateGo now (c1.set q a a.ttl now) rest

/-- `handle_dns_query` up to (but not including) the final
`pack_all_compressed` call: returns the final header, question list, answer
list and cache.  `upstream` models `forward_dns_query` (a socket round
trip); `fnm` models `fnmatch.fnmatch`. -/
def handleCore (fnm : List Char → List Char → Bool) (cfg : RouterCfg)
    (upstream : List Nat → List Nat) (now fuel : Nat)
    (cache : TimedCache DNSQuestion DNSAnswer) (buf : List Nat) :
    Except Err (DNSHeader × List DNSQuestion × List DNSAnswer ×
      TimedCache DNSQuestion DNSAnswer) := do
  let r ← unpack_all buf fuel
  match r with
  | (_, _, some _) =>
    -- `header, questions = unpack_all(buf)` on a 3-tuple: ValueError.
    .error .valueError
  | (header, questions, none) => do
    let (new_questions, cachedIdx, blockedIdx, c1) :=
      classifyGo fnm cfg.blocklist now cache 0 questions
    let new_header := { header with qdcount := new_questions.length }
    let (recv_header, recv_questions, recv_answers) ←
      if 0 < new_questions.length then do
        let send ← pack_all_compressed new_header new_questions []
        let response := upstream send
        let (rh, rq, rao) ← unpack_all response fuel
        pure (rh, rq, rao.getD [])
      else
        pure ({ new_header with qr := 1 }, new_questions, ([] : List DNSAnswer))
    let recv_header :=
      if 0 < cachedIdx.length ∨ 0 < blockedIdx.length then
        { recv_header with rd := 0, ra := 0 }
      else recv_header
    let (rq1, ra1, c2) ← spliceCachedGo questions now cachedIdx recv_questions recv_answers c1
    let (rq2, ra2) := spliceBlockedGo questions cfg blockedIdx rq1 ra1
    let final_header := { recv_header with qdcount := rq2.length, ancount := ra2.length }
    let c3 := cacheUpdateGo now c2 (questions.zip ra2)
    return (final_header, rq2, ra2, c3)

/-- `handle_dns_query(buf)`: route, then pack the final response compressed. -/
def handle_dns_query (fnm : List Char → List Char → Bool) (cfg : RouterCfg)
    (upstream : List Nat → List Nat) (now fuel : Nat)
    (cache : TimedCache DNSQuestion DNSAnswer) (buf : List Nat) :
    Except Err (List Nat × TimedCache DNSQuestion DNSAnswer) := do
  let (h, qs, as, c) ← handleCore fnm cfg upstream now fuel cache buf
  let out ← pack_all_compressed h qs as
  return (out, c)

/-- Validity of one label: 1-63 characters, all ascii. -/
def ValidLabel (l : List Char) : Prop :=
  1 ≤ l.length ∧ l.length ≤ 63 ∧ ∀ c ∈ l, c.toNat < 128

/-- Validity of a decoded name: every dot-separated label is valid. -/
def ValidName (n : List Char) : Prop :=
  ∀ l ∈ splitOnDot n, ValidLabel l

/-- All numeric header fields within their wire bit widths. -/
def ValidHeader (h : DNSHeader) : Prop :=
  h.id < 65536 ∧ h.qr < 2 ∧ h.opcode < 16 ∧ h.aa < 2 ∧ h.tc < 2 ∧ h.rd < 2 ∧
    h.ra < 2 ∧ h.z < 8 ∧ h.rcode < 16 ∧ h.qdcount < 65536 ∧ h.ancount < 65536 ∧
    h.nscount < 65536 ∧ h.arcount < 65536

/-- Valid question: valid name, 16-bit type and class. -/
def ValidQuestion (q : DNSQuestion) : Prop :=
  ValidName q.decoded_name ∧ q.type_ < 65536 ∧ q.class_ < 65536

/-- Valid answer: valid name, fields within widths, and `rdlength` equal to
the actual rdata byte count (the data-model invariant). -/
def ValidAnswer (a : DNSAnswer) : Prop :=
  ValidName a.decoded_name ∧ a.type_ < 65536 ∧ a.class_ < 65536 ∧
    a.ttl < 4294967296 ∧ a.rdlength < 65536 ∧ a.rdlength = a.rdata.length ∧
    ∀ b ∈ a.rdata, b < 256

/-- A valid message: valid parts and header counts that match the lists. -/
def ValidMsg (h : DNSHeader) (qs : List DNSQuestion) (as : List DNSAnswer) : Prop :=
  ValidHeader h ∧ (∀ q ∈ qs, ValidQuestion q) ∧ (∀ a ∈ as, ValidAnswer a) ∧
    h.qdcount = qs.length ∧ h.ancount = as.length

/-- The answers component `unpack_all` yields for an answer list `as`:
`none` (the source's 2-tuple) when there are no answers. -/
def optAns (as : List DNSAnswer) : Option (List DNSAnswer) :=
  if as = [] then none else some as

/-- `fnmatch.fnmatch` restricted to wildcard-free patterns: plain equality. -/
def fnmEq (n p : List Char) : Bool := n = p

/-- Demo question that the demo blocklist blocks. -/
def dqB : DNSQuestion := ⟨['b'], 1, 1⟩

/-- Demo question present in the demo cache. -/
def dqC : DNSQuestion := ⟨['c'], 1, 1⟩

/-- Demo question that must be forwarded. -/
def dqF : DNSQuestion := ⟨['f'], 1, 1⟩

/-- Cached answer for `dqC`. -/
def daC : DNSAnswer := ⟨['c'], 1, 1, 40, 4, [1, 2, 3, 4]⟩

/-- Upstream answer for `dqF`. -/
def daF : DNSAnswer := ⟨['f'], 1, 1, 50, 4, [5, 6, 7, 8]⟩

/-- Demo cache: `dqC` stored with expiry 100 (not expired at `now = 10`). -/
def demoCache : TimedCache DNSQuestion DNSAnswer := ⟨[(dqC, daC, 100)]⟩

/-- Demo configuration: blocklist `{"b"}`, redirect 9.9.9.9, blocking TTL 60. -/
def demoCfg : RouterCfg := ⟨[['b']], ⟨9, 9, 9, 9⟩, 60⟩

/-- Demo query: id 1, rd set, three questions in order blocked, cached,
forwarded. -/
def demoQuery : List Nat :=
  (pack_all_compressed ⟨1, 0, 0, 0, 0, 1, 0, 0, 0, 3, 0, 0, 0⟩ [dqB, dqC, dqF] []).toOption.getD []

/-- Demo upstream reply: a response carrying `dqF` and its answer. -/
def demoReply : List Nat :=
  (pack_all_compressed ⟨1, 1, 0, 0, 0, 1, 1, 0, 0, 1, 1, 0, 0⟩ [dqF] [daF]).toOption.getD []

/-- Buffer for the truncated-rdata experiment: header with `ancount = 1`,
one answer whose `rdlength` claims 4 bytes while only 2 remain. -/
def shortRdataBuf : List Nat :=
  [0, 0, 0, 0, 0, 0, 0, 1, 0, 0, 0, 0] ++ [0] ++ [0, 1] ++ [0, 1] ++
    [0, 0, 0, 30] ++ [0, 4] ++ [9, 9]

/-- A query that itself carries an answer record (`ancount = 1`). -/
def queryWithAnswer : List Nat :=
  (pack_all_compressed ⟨2, 0, 0, 0, 0, 1, 0, 0, 0, 1, 1, 0, 0⟩ [dqF] [daF]).toOption.getD []

instance (l : List Char) : Decidable (ValidLabel l) :=
  decidable_of_iff (1 ≤ l.length ∧ l.length ≤ 63 ∧ ∀ c ∈ l, c.toNat < 128) Iff.rfl

instance (n : List Char) : Decidable (ValidName n) :=
  decidable_of_iff (∀ l ∈ splitOnDot n, ValidLabel l) Iff.rfl

instance (h : DNSHeader) : Decidable (ValidHeader h) :=
  decidable_of_iff (h.id < 65536 ∧ h.qr < 2 ∧ h.opcode < 16 ∧ h.aa < 2 ∧ h.tc < 2 ∧
    h.rd < 2 ∧ h.ra < 2 ∧ h.z < 8 ∧ h.rcode < 16 ∧ h.qdcount < 65536 ∧
    h.ancount < 65536 ∧ h.nscount < 65536 ∧ h.arcount < 65536) Iff.rfl

instance (q : DNSQuestion) : Decidable (ValidQuestion q) :=
  decidable_of_iff (ValidName q.decoded_name ∧ q.type_ < 65536 ∧ q.class_ < 65536) Iff.rfl

instance (a : DNSAnswer) : Decidable (ValidAnswer a) :=
  decidable_of_iff (ValidName a.decoded_name ∧ a.type_ < 65536 ∧ a.class_ < 65536 ∧
    a.ttl < 4294967296 ∧ a.rdlength < 65536 ∧ a.rdlength = a.rdata.length ∧
    ∀ b ∈ a.rdata, b < 256) Iff.rfl

instance (h : DNSHeader) (qs : List DNSQuestion) (as : List DNSAnswer) :
    Decidable (ValidMsg h qs as) :=
  decidable_of_iff (ValidHeader h ∧ (∀ q ∈ qs, ValidQuestion q) ∧
    (∀ a ∈ as, ValidAnswer a) ∧ h.qdcount = qs.length ∧ h.ancount = as.length) Iff.rfl

/-- The 12 header bytes `DNSHeader.pack` emits for an in-range header. -/
def hdrBytes (h : DNSHeader) : List Nat :=
  [h.id / 256, h.id % 256, h.flagsWord / 256, h.flagsWord % 256,
    h.qdcount / 256, h.qdcount % 256, h.ancount / 256, h.ancount % 256,
    h.nscount / 256, h.nscount % 256, h.arcount / 256, h.arcount % 256]

/-- The `!HH` type and class bytes of a question. -/
def tcBytes (q : DNSQuestion) : List Nat :=
  [q.type_ / 256, q.type_ % 256, q.class_ / 256, q.class_ % 256]

/-- The wire bytes of one question record with its name inline. -/
def qBytesU (q : DNSQuestion) : List Nat :=
  encN q.decoded_name ++ tcBytes q

/-- The `!HHIH` fixed fields of an answer record. -/
def aFieldBytes (a : DNSAnswer) : List Nat :=
  [a.type_ / 256, a.type_ % 256, a.class_ / 256, a.class_ % 256,
    a.ttl / 16777216, a.ttl / 65536 % 256, a.ttl / 256 % 256, a.ttl % 256,
    a.rdlength / 256, a.rdlength % 256]

/-- The wire bytes of one answer record with its name inline. -/
def aBytesU (a : DNSAnswer) : List Nat :=
  encN a.decoded_name ++ aFieldBytes a ++ a.rdata

/-- The two bytes of a compression pointer to `off`. -/
def ptrBytes (off : Nat) : List Nat :=
  [(0xC000 ||| off) / 256, (0xC000 ||| off) % 256]

/-- The concatenated wire bytes of several uncompressed questions. -/
def qsBytesU : List DNSQuestion → List Nat
  | [] => []
  | q :: qs => qBytesU q ++ qsBytesU qs

/-- The concatenated wire bytes of several uncompressed answers. -/
def asBytesU : List DNSAnswer → List Nat
  | [] => []
  | a :: as => aBytesU a ++ asBytesU as

/-- Invariant of the `name_offset_map` relative to the response built so far:
every recorded name is valid and its full uncompressed encoding starts at
the recorded absolute offset. -/
def MapInv (m : List (List Char × Nat)) (B : List Nat) : Prop :=
  ∀ p ∈ m, ValidName p.1 ∧
    ∃ pre2 post2, B = pre2 ++ encN p.1 ++ post2 ∧ pre2.length = p.2

/-- Header (`ancount = 3`), no questions, and three answers of which the
first carries 17000 bytes of rdata, pushing the first occurrence of the
name `"y"` past offset 16384; the third answer repeats `"y"`. -/
def cxh : DNSHeader := ⟨0, 0, 0, 0, 0, 0, 0, 0, 0, 0, 3, 0, 0⟩

/-- First oversized answer (name `"x"`, 17000 bytes of rdata). -/
def cxa1 : DNSAnswer := ⟨['x'], 1, 1, 0, 17000, List.replicate 17000 0⟩

/-- Second answer: first occurrence of `"y"`, at offset 17025. -/
def cxa2 : DNSAnswer := ⟨['y'], 1, 1, 0, 0, []⟩

/-- Third answer: repeats `"y"`, so the packer emits a pointer to 17025,
which does not fit in 14 bits. -/
def cxa3 : DNSAnswer := ⟨['y'], 1, 1, 0, 0, []⟩

/-- What the third answer decodes to instead: the truncated pointer
`0xC000 | 17025` keeps only `17025 % 16384 = 641`, an offset inside the
first answer's zero-filled rdata, where a zero byte reads as the root
(empty) name. -/
def cxa3Bad : DNSAnswer := ⟨[], 1, 1, 0, 0, []⟩

/-- The compressed packing of the counterexample message, written in the
exact shape `pack_all_compressed` builds it: the first two answers inline,
the third with the (truncated) pointer to offset 17025. -/
def cxBuf : List Nat :=
  ((hdrBytes cxh ++ (encN cxa1.decoded_name ++ (aFieldBytes cxa1 ++ cxa1.rdata))) ++
      (encN cxa2.decoded_name ++ (aFieldBytes cxa2 ++ cxa2.rdata))) ++
    (ptrBytes 17025 ++ (aFieldBytes cxa3 ++ cxa3.rdata))

/-- Round-trip witness header: a response with one question and one answer. -/
def rtH : DNSHeader := ⟨1, 1, 0, 0, 0, 1, 1, 0, 0, 1, 1, 0, 0⟩

/-- The compressed packing of the round-trip witness message (the answer's
name repeats the question's, so it is emitted as a compression pointer). -/
def rtBuf : List Nat :=
  (pack_all_compressed rtH [dqF] [daF]).toOption.getD []

/-- Header for the trailing-bytes experiment: one question, one answer, and
nonzero `nscount = 2`, `arcount = 3` although no such records follow. -/
def c10H : DNSHeader := ⟨7, 1, 0, 0, 0, 1, 0, 0, 0, 1, 1, 2, 3⟩

/-- Wire message for the trailing-bytes experiment. -/
def c10Buf : List Nat := hdrBytes c10H ++ (qBytesU dqF ++ aBytesU daF)

-- End of definitions; theorems follow.

/-- C1: the router is claimed to splice cached and blocked questions back at
their original indices so that the final question and answer lists are in
exactly the original query order for every arrangement.  This fails: for the
query `[blocked, cached, forwarded]`, the cached question is inserted before
the blocked one has been put back, so the final order is
`[blocked, forwarded, cached]` instead of `[blocked, cached, forwarded]`,
and the answers are misplaced the same way. -/
theorem c1_splice_misorders :
    (handleCore fnmEq demoCfg (fun _ => demoReply) 10 50 demoCache demoQuery).toOption.map
        (fun r => r.2.1) = some [dqB, dqF, dqC] ∧
      (handleCore fnmEq demoCfg (fun _ => demoReply) 10 50 demoCache demoQuery).toOption.map
        (fun r => r.2.2.1) = some [blockedAnswer demoCfg dqB, daF, daC] ∧
      [dqB, dqF, dqC] ≠ [dqB, dqC, dqF] := by
  refine ⟨by decide, by decide, by decide⟩

/-- C4: reads are claimed to be bounds-checked with a truncated-message
error.  Instead, the rdata slice silently clamps: on a buffer whose last
answer claims `rdlength = 4` with only two bytes left, `unpack_all`
succeeds and returns an answer whose `rdata` is the silently shortened
`[9, 9]`. -/
theorem c4_truncated_rdata_silent :
    unpack_all shortRdataBuf 50 =
      .ok (⟨0, 0, 0, 0, 0, 0, 0, 0, 0, 0, 1, 0, 0⟩, [],
        some [⟨[], 1, 1, 30, 4, [9, 9]⟩]) := by
  rfl

/-- C7: routing is claimed to ignore answer records present in a query.  In
fact `header, questions = unpack_all(buf)` raises a `ValueError` whenever
the query's `ancount` is nonzero, because `unpack_all` then returns a
3-tuple. -/
theorem c7_answers_in_query_value_error :
    handleCore fnmEq demoCfg (fun _ => demoReply) 10 50 demoCache queryWithAnswer =
      .error .valueError := by
  rfl

/-- C6 counterexample: the claim says an entry expires the instant
`now >= expiry`, so a `get` exactly at the stored expiry should return
absent.  The source tests `expiry < time.time()`, so a `get` exactly at the
expiry returns the stored value. -/
theorem c6_expiry_boundary_counterexample :
    ((⟨[(0, 7, 5)]⟩ : TimedCache Nat Nat).get 0 5).1 = some 7 := by
  decide

/-- C9 counterexample: encoding is claimed to fail for any label longer than
63 bytes, but a 64-byte label encodes without error (`bytes([64])` is fine;
the source never checks against 63). -/
theorem c9_long_label_counterexample :
    encode_name_uncompressed (List.replicate 64 'a') =
      .ok (64 :: List.replicate 64 97 ++ [0]) := by
  rfl

theorem readExact_error {buf : List Nat} {i k : Nat} {e : Err}
    (h : readExact buf i k = .error e) : e = .structError := by
  unfold readExact at h
  split at h
  · exact absurd h (by simp)
  · exact (Except.error.injEq _ _).mp h.symm

theorem sliceDecodeAscii_error {buf : List Nat} {s k : Nat} {e : Err}
    (h : sliceDecodeAscii buf s k = .error e) : e = .unicodeDecodeError := by
  unfold sliceDecodeAscii at h
  dsimp only at h
  split at h
  · exact absurd h (by simp)
  · exact (Except.error.injEq _ _).mp h.symm

theorem decodeNameGo_ne_loop (buf : List Nat) :
    ∀ (fuel idx : Nat) (visited : List Nat) (labels : List (List Char)),
      (∀ v ∈ visited, v < idx) →
      decodeNameGo buf fuel idx visited labels ≠ .error .loopDetected := by
  intro fuel
  induction fuel with
  | zero => intro idx visited labels _ h; simp [decodeNameGo] at h
  | succ n ih =>
    intro idx visited labels hv h
    rw [decodeNameGo] at h
    rw [if_neg (fun hmem => absurd (hv idx hmem) (lt_irrefl idx))] at h
    cases hb : buf[idx]? with
    | none => rw [hb] at h; simp at h
    | some length =>
      rw [hb] at h
      dsimp only at h
      by_cases h0 : length = 0
      · rw [if_pos h0] at h; simp at h
      rw [if_neg h0] at h
      by_cases hp : length &&& 0xC0 = 0xC0
      · rw [if_pos hp] at h
        cases hr : readExact buf idx 2 with
        | error e =>
          rw [hr] at h
          simp at h
          exact absurd (h ▸ readExact_error hr) (by simp)
        | ok bs =>
          rw [hr] at h
          dsimp only at h
          cases hs : decodeNameGo buf n ((bs.getD 0 0 * 256 + bs.getD 1 0) &&& 0x3FFF) [] [] with
          | error e =>
            rw [hs] at h
            simp at h
            exact ih _ [] [] (by simp) (by rw [hs, h])
          | ok r => rw [hs] at h; simp at h
      · rw [if_neg hp] at h
        cases hs : sliceDecodeAscii buf (idx + 1) length with
        | error e =>
          rw [hs] at h
          simp at h
          exact absurd (h ▸ sliceDecodeAscii_error hs) (by simp)
        | ok lbl =>
          rw [hs] at h
          dsimp only at h
          refine ih (idx + 1 + length) (idx :: visited) (labels ++ [lbl]) ?_ h
          intro v hvmem
          rcases List.mem_cons.mp hvmem with hveq | hvin
          · omega
          · have := hv v hvin; omega

/-- C3: decoding is claimed to fail with the compression-loop error whenever
a pointer chain revisits an offset.  It never does: the recursive call of
`decode_name` starts from a fresh `visited` set and, within one call, the
offset only moves forward, so the loop guard can never fire.  A
self-pointing pointer (`b"\xc0\x00"` at offset 0) instead recurses until the
interpreter's recursion limit, whatever that limit is, and no input at all
can produce the loop-detected error. -/
theorem c3_loop_error_unreachable :
    (∀ fuel : Nat, decode_name [192, 0] 0 fuel = .error .recursionLimit) ∧
      (∀ (buf : List Nat) (start_idx fuel : Nat),
        decode_name buf start_idx fuel ≠ .error .loopDetected) := by
  constructor
  · intro fuel
    unfold decode_name
    induction fuel with
    | zero => rfl
    | succ n ih =>
      have h2 : (49152 &&& 16383 : Nat) = 0 := rfl
      simp only [decodeNameGo, readExact]
      norm_num
      rw [h2, ih]
  · intro buf start_idx fuel
    exact decodeNameGo_ne_loop buf fuel start_idx [] [] (by simp)

/-- C6 (amended): `get` returns the stored value when the key is present and
`now ≤ expiry` (so a `get` performed exactly at the stored expiry time still
returns the value); it removes the entry and returns absent when
`expiry < now`; and it returns absent, leaving the cache unchanged, when the
key is absent.  The expiry comparison is `expiry < now`, not
`now >= expiry`. -/
theorem c6_get_amended {K V : Type} [DecidableEq K] (c : TimedCache K V)
    (k : K) (now : Nat) :
    (c.find? k = none → c.get k now = (none, c)) ∧
      (∀ v e, c.find? k = some (v, e) → now ≤ e → c.get k now = (some v, c)) ∧
      (∀ v e, c.find? k = some (v, e) → e < now →
        c.get k now = (none, ⟨removeData c.data k⟩)) := by
  cases hf : lookupData c.data k with
  | none =>
    refine ⟨fun _ => ?_, fun v e hve _ => ?_, fun v e hve _ => ?_⟩
    · simp [TimedCache.get, hf]
    · simp [TimedCache.find?, hf] at hve
    · simp [TimedCache.find?, hf] at hve
  | some t =>
    obtain ⟨v', e'⟩ := t
    refine ⟨fun hn => ?_, fun v e hve hle => ?_, fun v e hve hlt => ?_⟩
    · simp [TimedCache.find?, hf] at hn
    · simp [TimedCache.find?, hf] at hve
      obtain ⟨hv, he⟩ := hve
      subst hv; subst he
      simp [TimedCache.get, hf, Nat.not_lt.mpr hle]
    · simp [TimedCache.find?, hf] at hve
      obtain ⟨hv, he⟩ := hve
      subst hv; subst he
      simp [TimedCache.get, hf, hlt]

/-- Witness for `c6_get_amended` at a concrete cache: an entry with expiry 5
read at `now = 9` is expired, deleted, and reported absent. -/
theorem c6_get_amended_witness :
    ((⟨[(0, 7, 5)]⟩ : TimedCache Nat Nat).get 0 9) = (none, (⟨[]⟩ : TimedCache Nat Nat)) := by
  have h := (c6_get_amended (⟨[(0, 7, 5)]⟩ : TimedCache Nat Nat) 0 9).2.2 7 5 (by rfl) (by omega)
  simpa using h

theorem encodeLabel_ok {l : List Char} (h255 : l.length ≤ 255)
    (hascii : ∀ c ∈ l, c.toNat < 128) :
    encodeLabel l = .ok (l.length :: l.map Char.toNat) := by
  unfold encodeLabel
  rw [if_pos h255, if_pos (by simpa [List.all_eq_true] using hascii)]

theorem encodeLabels_ok :
    ∀ ls : List (List Char),
      (∀ l ∈ ls, l.length ≤ 255 ∧ ∀ c ∈ l, c.toNat < 128) →
      encodeLabels ls = .ok (encLabelsBytes ls)
  | [], _ => rfl
  | l :: ls, h => by
    have hl := h l (by simp)
    have hrest := encodeLabels_ok ls (fun x hx => h x (by simp [hx]))
    simp only [encodeLabels, encodeLabel_ok hl.1 hl.2, hrest]
    rfl

theorem encodeLabel_error_of_bad {l : List Char}
    (h : 255 < l.length ∨ ∃ c ∈ l, 128 ≤ c.toNat) :
    ∃ e, encodeLabel l = .error e := by
  unfold encodeLabel
  rcases h with hlong | ⟨c, hc, hge⟩
  · rw [if_neg (by omega)]
    exact ⟨_, rfl⟩
  · by_cases h255 : l.length ≤ 255
    · rw [if_pos h255, if_neg ?_]
      · exact ⟨_, rfl⟩
      · simp only [List.all_eq_true]
        intro hall
        have := hall c hc
        simp at this
        omega
    · rw [if_neg h255]
      exact ⟨_, rfl⟩

theorem encodeLabels_error :
    ∀ ls : List (List Char),
      (∃ l ∈ ls, 255 < l.length ∨ ∃ c ∈ l, 128 ≤ c.toNat) →
      ∃ e, encodeLabels ls = .error e
  | [], h => by simp at h
  | l :: ls, h => by
    cases he : encodeLabel l with
    | error e => exact ⟨e, by simp only [encodeLabels, he]; rfl⟩
    | ok bs =>
      obtain ⟨l', hl'mem, hl'bad⟩ := h
      rcases List.mem_cons.mp hl'mem with heq | htail
      · subst heq
        obtain ⟨e, he'⟩ := encodeLabel_error_of_bad hl'bad
        rw [he] at he'
        exact absurd he' (by simp)
      · obtain ⟨e, htl⟩ := encodeLabels_error ls ⟨l', htail, hl'bad⟩
        exact ⟨e, by simp only [encodeLabels, he, htl]; rfl⟩

/-- C9 (amended): uncompressed name encoding fails for every name containing
a label longer than 255 bytes (not 63) or containing non-ascii characters;
for every name whose labels are ascii and at most 255 bytes (in particular
all 1-63 byte ascii labels) it succeeds, emitting each label
length-prefixed followed by a zero terminator byte. -/
theorem c9_encode_amended (name : List Char) :
    ((∀ l ∈ splitOnDot name, l.length ≤ 255 ∧ ∀ c ∈ l, c.toNat < 128) →
      encode_name_uncompressed name = .ok (encLabelsBytes (splitOnDot name) ++ [0])) ∧
      ((∃ l ∈ splitOnDot name, 255 < l.length ∨ ∃ c ∈ l, 128 ≤ c.toNat) →
        ∃ e, encode_name_uncompressed name = .error e) := by
  constructor
  · intro hok
    simp [encode_name_uncompressed, encodeLabels_ok _ hok]
  · intro hbad
    obtain ⟨e, he⟩ := encodeLabels_error _ hbad
    exact ⟨e, by simp [encode_name_uncompressed, he]⟩

set_option maxRecDepth 4000 in
/-- Witness for `c9_encode_amended`: the name `"a.b"` encodes, and a single
300-byte label fails. -/
theorem c9_encode_amended_witness :
    encode_name_uncompressed ['a', '.', 'b'] =
        .ok (encLabelsBytes (splitOnDot ['a', '.', 'b']) ++ [0]) ∧
      ∃ e, encode_name_uncompressed (List.replicate 300 'a') = .error e :=
  ⟨(c9_encode_amended ['a', '.', 'b']).1 (by decide),
   (c9_encode_amended (List.replicate 300 'a')).2 (by decide)⟩

theorem mem_pyInsert_self {α : Type} (i : Nat) (x : α) (l : List α) :
    x ∈ pyInsert i x l := by
  unfold pyInsert
  exact List.mem_append.mpr (Or.inr (List.mem_cons_self x _))

theorem mem_pyInsert_of_mem {α : Type} {x : α} {l : List α} (i : Nat) (y : α)
    (h : x ∈ l) : x ∈ pyInsert i y l := by
  unfold pyInsert
  rw [← List.take_append_drop i l] at h
  rcases List.mem_append.mp h with h1 | h2
  · exact List.mem_append.mpr (Or.inl h1)
  · exact List.mem_append.mpr (Or.inr (List.mem_cons_of_mem y h2))

theorem spliceBlockedGo_mem_mono (qs : List DNSQuestion) (cfg : RouterCfg) :
    ∀ (idxs : List Nat) (rq : List DNSQuestion) (ra : List DNSAnswer)
      (a : DNSAnswer), a ∈ ra → a ∈ (spliceBlockedGo qs cfg idxs rq ra).2
  | [], _, _, _, h => h
  | i :: is, rq, ra, a, h =>
    spliceBlockedGo_mem_mono qs cfg is _ _ a
      (mem_pyInsert_of_mem i (blockedAnswer cfg (qs.getD i {})) h)

theorem spliceBlockedGo_mem (qs : List DNSQuestion) (cfg : RouterCfg) :
    ∀ (idxs : List Nat) (rq : List DNSQuestion) (ra : List DNSAnswer),
      ∀ i ∈ idxs, blockedAnswer cfg (qs.getD i {}) ∈ (spliceBlockedGo qs cfg idxs rq ra).2
  | j :: is, rq, ra, i, hi => by
    rcases List.mem_cons.mp hi with heq | htail
    · subst heq
      exact spliceBlockedGo_mem_mono qs cfg is _ _ _ (mem_pyInsert_self i _ ra)
    · exact spliceBlockedGo_mem qs cfg is _ _ i htail

/-- C5: every answer the router synthesizes for a blocked question carries
the question's decoded name, the question's type as its type, the
question's *type* (not its class) as its class field, the configured
default blocking TTL, rdlength 4, and as rdata the 4 network-order bytes of
the configured redirect address (whose big-endian value is the address). -/
theorem c5_blocked_answer_fields (cfg : RouterCfg) (qs : List DNSQuestion)
    (idxs : List Nat) (rq : List DNSQuestion) (ra : List DNSAnswer)
    (i : Nat) (hi : i ∈ idxs) (hlen : i < qs.length) :
    ∃ a ∈ (spliceBlockedGo qs cfg idxs rq ra).2,
      a.decoded_name = (qs.get ⟨i, hlen⟩).decoded_name ∧
        a.type_ = (qs.get ⟨i, hlen⟩).type_ ∧
        a.class_ = (qs.get ⟨i, hlen⟩).type_ ∧
        a.ttl = cfg.default_blocking_ttl ∧
        a.rdlength = 4 ∧
        a.rdata = inet_aton cfg.redirect_ip ∧
        ((a.rdata.getD 0 0 * 256 + a.rdata.getD 1 0) * 256 + a.rdata.getD 2 0) * 256 +
            a.rdata.getD 3 0 = ipv4Nat cfg.redirect_ip := by
  have hgetd : qs.getD i {} = qs.get ⟨i, hlen⟩ := by
    rw [List.getD_eq_getElem?_getD, List.getElem?_eq_getElem hlen]
    rfl
  refine ⟨blockedAnswer cfg (qs.getD i {}), spliceBlockedGo_mem qs cfg idxs rq ra i hi, ?_⟩
  rw [hgetd]
  exact ⟨rfl, rfl, rfl, rfl, rfl, rfl, rfl⟩

/-- Witness for `c5_blocked_answer_fields` at the demo configuration. -/
theorem c5_blocked_answer_fields_witness :
    ∃ a ∈ (spliceBlockedGo [dqB] demoCfg [0] [] []).2,
      a.decoded_name = ([dqB].get ⟨0, by decide⟩).decoded_name ∧
        a.type_ = ([dqB].get ⟨0, by decide⟩).type_ ∧
        a.class_ = ([dqB].get ⟨0, by decide⟩).type_ ∧
        a.ttl = demoCfg.default_blocking_ttl ∧
        a.rdlength = 4 ∧
        a.rdata = inet_aton demoCfg.redirect_ip ∧
        ((a.rdata.getD 0 0 * 256 + a.rdata.getD 1 0) * 256 + a.rdata.getD 2 0) * 256 +
            a.rdata.getD 3 0 = ipv4Nat demoCfg.redirect_ip :=
  c5_blocked_answer_fields demoCfg [dqB] [0] [] [] 0 (by decide) (by decide)

theorem lookup_removeData_ne {K V : Type} [DecidableEq K] (l : List (K × V × Nat))
    (q k : K) (hne : ¬ q = k) :
    lookupData (removeData l q) k = lookupData l k := by
  induction l with
  | nil => rfl
  | cons e rest ih =>
    by_cases he : e.1 = q
    · have hk : ¬ e.1 = k := by rw [he]; exact hne
      rw [removeData, if_pos he, lookupData, if_neg hk, ih]
    · by_cases hk : e.1 = k
      · rw [removeData, if_neg he, lookupData, if_pos hk, lookupData, if_pos hk]
      · rw [removeData, if_neg he, lookupData, if_neg hk, lookupData, if_neg hk, ih]

theorem lookup_setData_ne {K V : Type} [DecidableEq K] (l : List (K × V × Nat))
    (q k : K) (vn : V × Nat) (hne : ¬ q = k) :
    lookupData (setData l q vn) k = lookupData l k := by
  induction l with
  | nil => simp [setData, lookupData, hne]
  | cons e rest ih =>
    by_cases he : e.1 = q
    · have hk : ¬ e.1 = k := by rw [he]; exact hne
      rw [setData, if_pos he, lookupData, if_neg hne, lookupData, if_neg hk, ih]
    · by_cases hk : e.1 = k
      · rw [setData, if_neg he, lookupData, if_pos hk, lookupData, if_pos hk]
      · rw [setData, if_neg he, lookupData, if_neg hk, lookupData, if_neg hk, ih]

theorem lookup_setData_self {K V : Type} [DecidableEq K] (l : List (K × V × Nat))
    (q : K) (vn : V × Nat) :
    lookupData (setData l q vn) q = some vn := by
  induction l with
  | nil => simp [setData, lookupData]
  | cons e rest ih =>
    by_cases he : e.1 = q
    · simp [setData, if_pos he, lookupData]
    · rw [setData, if_neg he, lookupData, if_neg he, ih]

theorem tcSet_find?_ne {K V : Type} [DecidableEq K] (c : TimedCache K V)
    (q k : K) (a : V) (ttl now : Nat) (hne : ¬ q = k) :
    (c.set q a ttl now).find? k = c.find? k :=
  lookup_setData_ne c.data q k (a, now + ttl) hne

theorem tcSet_find?_self {K V : Type} [DecidableEq K] (c : TimedCache K V)
    (q : K) (a : V) (ttl now : Nat) :
    (c.set q a ttl now).find? q = some (a, now + ttl) :=
  lookup_setData_self c.data q (a, now + ttl)

theorem tcGet_find?_ne {K V : Type} [DecidableEq K] (c : TimedCache K V)
    (q k : K) (now : Nat) (hne : ¬ q = k) :
    ((c.get q now).2).find? k = c.find? k := by
  unfold TimedCache.get
  cases hf : lookupData c.data q with
  | none => rfl
  | some t =>
    obtain ⟨v', e'⟩ := t
    dsimp only
    by_cases he : e' < now
    · rw [if_pos he]
      exact lookup_removeData_ne c.data q k hne
    · rw [if_neg he]

theorem tcGet_found {K V : Type} [DecidableEq K] {c : TimedCache K V} {k : K}
    {v : V} {e now : Nat} (hf : c.find? k = some (v, e)) (he : now ≤ e) :
    c.get k now = (some v, c) := by
  unfold TimedCache.find? at hf
  unfold TimedCache.get
  rw [hf]
  simp [Nat.not_lt.mpr he]

theorem tcGet_some_spec {K V : Type} [DecidableEq K] {c c' : TimedCache K V}
    {k : K} {v : V} {now : Nat} (h : c.get k now = (some v, c')) :
    c' = c ∧ ∃ e, c.find? k = some (v, e) ∧ now ≤ e := by
  unfold TimedCache.get at h
  cases hd : lookupData c.data k with
  | none => rw [hd] at h; exact absurd h (by simp)
  | some t =>
    obtain ⟨v', e'⟩ := t
    rw [hd] at h
    dsimp only at h
    by_cases he : e' < now
    · rw [if_pos he] at h
      exact absurd h (by simp)
    · rw [if_neg he] at h
      have h1 : some v' = some v := congrArg Prod.fst h
      have h2 : c = c' := congrArg Prod.snd h
      refine ⟨h2.symm, e', ?_, by omega⟩
      unfold TimedCache.find?
      rw [hd, Option.some.inj h1]

theorem tcContainsM_spec {K V : Type} [DecidableEq K] (c : TimedCache K V)
    (k : K) (now : Nat) :
    c.containsM k now = ((c.get k now).1.isSome, (c.get k now).2) := by
  unfold TimedCache.containsM
  cases hg : c.get k now with
  | mk fst snd => cases fst <;> simp

theorem tcContainsM_true_iff {K V : Type} [DecidableEq K] (c : TimedCache K V)
    (k : K) (now : Nat) :
    (c.containsM k now).1 = true ↔ ∃ v e, c.find? k = some (v, e) ∧ now ≤ e := by
  rw [tcContainsM_spec]
  constructor
  · intro h
    cases hg : c.get k now with
    | mk fst snd =>
      rw [hg] at h
      simp only at h
      obtain ⟨v, hv⟩ := Option.isSome_iff_exists.mp h
      subst hv
      obtain ⟨_, e, hf, he⟩ := tcGet_some_spec hg
      exact ⟨v, e, hf, he⟩
  · intro ⟨v, e, hf, he⟩
    rw [show c.get k now = (some v, c) from tcGet_found hf he]
    rfl

theorem tcContainsM_fst_congr {K V : Type} [DecidableEq K]
    {c1 c2 : TimedCache K V} {k : K} {now : Nat}
    (h : c1.find? k = c2.find? k) :
    (c1.containsM k now).1 = (c2.containsM k now).1 := by
  by_cases h1 : (c1.containsM k now).1 = true
  · obtain ⟨v, e, hf, he⟩ := (tcContainsM_true_iff c1 k now).mp h1
    rw [h1, ((tcContainsM_true_iff c2 k now).mpr ⟨v, e, h ▸ hf, he⟩)]
  · have h2 : ¬ (c2.containsM k now).1 = true := by
      intro h2
      obtain ⟨v, e, hf, he⟩ := (tcContainsM_true_iff c2 k now).mp h2
      exact h1 ((tcContainsM_true_iff c1 k now).mpr ⟨v, e, h.symm ▸ hf, he⟩)
    rw [Bool.not_eq_true] at h1 h2
    rw [h1, h2]

theorem cacheUpdateGo_keeps {now : Nat} :
    ∀ (l : List (DNSQuestion × DNSAnswer)) (c : TimedCache DNSQuestion DNSAnswer)
      (k : DNSQuestion) (v : DNSAnswer) (e : Nat),
      c.find? k = some (v, e) → now ≤ e →
      (cacheUpdateGo now c l).find? k = some (v, e)
  | [], c, k, v, e, hf, _ => hf
  | (q, a) :: rest, c, k, v, e, hf, he => by
    cases hc : c.containsM q now with
    | mk b c1 =>
      have hc1 : c1 = (c.get q now).2 := by
        rw [tcContainsM_spec] at hc
        exact (congrArg Prod.snd hc).symm
      have hpres : c1.find? k = some (v, e) := by
        by_cases hqk : q = k
        · subst hqk
          rw [hc1, tcGet_found hf he]
          exact hf
        · rw [hc1, tcGet_find?_ne c q k now hqk]
          exact hf
      cases b with
      | true =>
        rw [cacheUpdateGo, hc]
        exact cacheUpdateGo_keeps rest c1 k v e hpres he
      | false =>
        have hqk : ¬ q = k := by
          intro hqk
          subst hqk
          have : (c.containsM q now).1 = true :=
            (tcContainsM_true_iff c q now).mpr ⟨v, e, hf, he⟩
          rw [hc] at this
          exact Bool.false_ne_true this
        rw [cacheUpdateGo, hc]
        exact cacheUpdateGo_keeps rest (c1.set q a a.ttl now) k v e
          (by rw [tcSet_find?_ne c1 q k a a.ttl now hqk]; exact hpres) he

theorem cacheUpdateGo_untouched {now : Nat} :
    ∀ (l : List (DNSQuestion × DNSAnswer)) (c : TimedCache DNSQuestion DNSAnswer)
      (k : DNSQuestion), (∀ p ∈ l, ¬ p.1 = k) →
      (cacheUpdateGo now c l).find? k = c.find? k
  | [], _, _, _ => rfl
  | (q, a) :: rest, c, k, hk => by
    have hqk : ¬ q = k := hk (q, a) (by simp)
    have hrest : ∀ p ∈ rest, ¬ p.1 = k := fun p hp => hk p (by simp [hp])
    cases hc : c.containsM q now with
    | mk b c1 =>
      have hc1 : c1 = (c.get q now).2 := by
        rw [tcContainsM_spec] at hc
        exact (congrArg Prod.snd hc).symm
      have hpres : c1.find? k = c.find? k := by
        rw [hc1, tcGet_find?_ne c q k now hqk]
      cases b with
      | true =>
        rw [cacheUpdateGo, hc, cacheUpdateGo_untouched rest c1 k hrest, hpres]
      | false =>
        rw [cacheUpdateGo, hc, cacheUpdateGo_untouched rest (c1.set q a a.ttl now) k hrest,
          tcSet_find?_ne c1 q k a a.ttl now hqk, hpres]

theorem cacheUpdateGo_first_insert {now : Nat} (q : DNSQuestion) (a : DNSAnswer)
    (l2 : List (DNSQuestion × DNSAnswer)) :
    ∀ (l1 : List (DNSQuestion × DNSAnswer)) (c : TimedCache DNSQuestion DNSAnswer),
      (∀ p ∈ l1, ¬ p.1 = q) → (c.containsM q now).1 = false →
      (cacheUpdateGo now c (l1 ++ (q, a) :: l2)).find? q = some (a, now + a.ttl)
  | [], c, _, hnc => by
    cases hc : c.containsM q now with
    | mk b c1 =>
      have hb : b = false := by rw [hc] at hnc; exact hnc
      subst hb
      rw [List.nil_append, cacheUpdateGo, hc]
      exact cacheUpdateGo_keeps l2 (c1.set q a a.ttl now) q a (now + a.ttl)
        (tcSet_find?_self c1 q a a.ttl now) (Nat.le_add_right now a.ttl)
  | (p, pa) :: l1', c, hl1, hnc => by
    have hpq : ¬ p = q := hl1 (p, pa) (by simp)
    have hrest : ∀ x ∈ l1', ¬ x.1 = q := fun x hx => hl1 x (by simp [hx])
    cases hc : c.containsM p now with
    | mk b c1 =>
      have hc1 : c1 = (c.get p now).2 := by
        rw [tcContainsM_spec] at hc
        exact (congrArg Prod.snd hc).symm
      have hpres : c1.find? q = c.find? q := by
        rw [hc1, tcGet_find?_ne c p q now hpq]
      cases b with
      | true =>
        rw [List.cons_append, cacheUpdateGo, hc]
        exact cacheUpdateGo_first_insert q a l2 l1' c1 hrest
          (by rw [tcContainsM_fst_congr hpres]; exact hnc)
      | false =>
        rw [List.cons_append, cacheUpdateGo, hc]
        refine cacheUpdateGo_first_insert q a l2 l1' (c1.set p pa pa.ttl now) hrest ?_
        have hx : ((c1.set p pa pa.ttl now).containsM q now).1 = (c.containsM q now).1 :=
          tcContainsM_fst_congr
            (show (c1.set p pa pa.ttl now).find? q = c.find? q by
              rw [tcSet_find?_ne c1 p q pa pa.ttl now hpq]; exact hpres)
        rw [hx]
        exact hnc

theorem cacheUpdateGo_all_contained {now : Nat} :
    ∀ (l : List (DNSQuestion × DNSAnswer)) (c : TimedCache DNSQuestion DNSAnswer),
      ∀ p ∈ l, ((cacheUpdateGo now c l).containsM p.1 now).1 = true
  | (q, a) :: rest, c, p, hp => by
    cases hc : c.containsM q now with
    | mk b c1 =>
      have hc1 : c1 = (c.get q now).2 := by
        rw [tcContainsM_spec] at hc
        exact (congrArg Prod.snd hc).symm
      rcases List.mem_cons.mp hp with heq | htail
      · subst heq
        cases b with
        | true =>
          have hb : (c.containsM q now).1 = true := by rw [hc]
          obtain ⟨v, e, hf, he⟩ := (tcContainsM_true_iff c q now).mp hb
          have hc1c : c1 = c := by rw [hc1, tcGet_found hf he]
          rw [cacheUpdateGo, hc]
          refine (tcContainsM_true_iff _ _ _).mpr ⟨v, e, ?_, he⟩
          exact cacheUpdateGo_keeps rest c1 q v e (by rw [hc1c]; exact hf) he
        | false =>
          rw [cacheUpdateGo, hc]
          refine (tcContainsM_true_iff _ _ _).mpr ⟨a, now + a.ttl, ?_, Nat.le_add_right now a.ttl⟩
          exact cacheUpdateGo_keeps rest (c1.set q a a.ttl now) q a (now + a.ttl)
            (tcSet_find?_self c1 q a a.ttl now) (Nat.le_add_right now a.ttl)
      · cases b with
        | true =>
          rw [cacheUpdateGo, hc]
          exact cacheUpdateGo_all_contained rest c1 p htail
        | false =>
          rw [cacheUpdateGo, hc]
          exact cacheUpdateGo_all_contained rest (c1.set q a a.ttl now) p htail

/-- C8: over the final caching loop `for q, a in zip(questions, answers)`:
(i) an entry that is present and unexpired before the loop is never
overwritten or lost; (ii) every zipped question is present in the cache
after the loop; (iii) the first pair whose question is not already cached
is inserted with expiry `now + answer.ttl`, the TTL taken from that
answer's ttl field.  Cached and blocked answers flow through the same zip,
so they are cache candidates under exactly these rules. -/
theorem c8_cache_update (now : Nat) (c : TimedCache DNSQuestion DNSAnswer)
    (qs : List DNSQuestion) (ans : List DNSAnswer) :
    (∀ k v e, c.find? k = some (v, e) → now ≤ e →
        (cacheUpdateGo now c (qs.zip ans)).find? k = some (v, e)) ∧
      (∀ p ∈ qs.zip ans, ((cacheUpdateGo now c (qs.zip ans)).containsM p.1 now).1 = true) ∧
      (∀ (l1 : List (DNSQuestion × DNSAnswer)) (q : DNSQuestion) (a : DNSAnswer) l2,
        qs.zip ans = l1 ++ (q, a) :: l2 → (∀ p ∈ l1, ¬ p.1 = q) →
        (c.containsM q now).1 = false →
        (cacheUpdateGo now c (qs.zip ans)).find? q = some (a, now + a.ttl)) := by
  refine ⟨fun k v e hf he => cacheUpdateGo_keeps (qs.zip ans) c k v e hf he,
    fun p hp => cacheUpdateGo_all_contained (qs.zip ans) c p hp,
    fun l1 q a l2 hsplit hl1 hnc => ?_⟩
  rw [hsplit]
  exact cacheUpdateGo_first_insert q a l2 l1 c hl1 hnc

/-- Witness for `c8_cache_update`: the demo cache already holds `dqC`, so
its entry survives unchanged, and `dqF` (not yet cached) is inserted with
expiry `now + daF.ttl`. -/
theorem c8_cache_update_witness :
    (cacheUpdateGo 10 demoCache ([dqC, dqF].zip [daC, daF])).find? dqC = some (daC, 100) ∧
      (cacheUpdateGo 10 demoCache ([dqC, dqF].zip [daC, daF])).find? dqF =
        some (daF, 10 + daF.ttl) := by
  have h := c8_cache_update 10 demoCache [dqC, dqF] [daC, daF]
  exact ⟨h.1 dqC daC 100 (by rfl) (by omega),
    h.2.2 [(dqC, daC)] dqF daF [] (by rfl) (by decide) (by rfl)⟩

theorem splitOnDot_ne_nil : ∀ s : List Char, splitOnDot s ≠ []
  | [] => by simp [splitOnDot]
  | c :: rest => by
    unfold splitOnDot
    by_cases hc : c = '.'
    · simp [hc]
    · rw [if_neg hc]
      cases h : splitOnDot rest <;> simp

theorem joinDots_splitOnDot : ∀ s : List Char, joinDots (splitOnDot s) = s
  | [] => rfl
  | c :: rest => by
    have ih := joinDots_splitOnDot rest
    unfold splitOnDot
    by_cases hc : c = '.'
    · rw [if_pos hc]
      cases h : splitOnDot rest with
      | nil => exact absurd h (splitOnDot_ne_nil rest)
      | cons l ls =>
        rw [h] at ih
        have hj : joinDots ([] :: l :: ls) = '.' :: joinDots (l :: ls) := rfl
        rw [hj, ih, hc]
    · rw [if_neg hc]
      cases h : splitOnDot rest with
      | nil => exact absurd h (splitOnDot_ne_nil rest)
      | cons l ls =>
        rw [h] at ih
        cases ls with
        | nil =>
          rw [joinDots] at ih ⊢
          rw [ih]
        | cons l2 ls2 =>
          have hj1 : joinDots ((c :: l) :: l2 :: ls2) =
              (c :: l) ++ '.' :: joinDots (l2 :: ls2) := rfl
          have hj2 : joinDots (l :: l2 :: ls2) = l ++ '.' :: joinDots (l2 :: ls2) := rfl
          rw [hj2] at ih
          rw [hj1, List.cons_append, ih]

theorem shiftLeft_lor_eq_add {a n b : Nat} (hb : b < 2 ^ n) :
    (a <<< n) ||| b = a * 2 ^ n + b := by
  apply Nat.eq_of_testBit_eq
  intro i
  rw [Nat.testBit_lor, Nat.testBit_shiftLeft,
    show a * 2 ^ n + b = 2 ^ n * a + b by ring,
    Nat.testBit_mul_pow_two_add a hb i]
  by_cases hi : i < n
  · have hge : ¬ (i ≥ n) := by omega
    simp [hi, hge]
  · have hge : i ≥ n := by omega
    have hbi : b.testBit i = false :=
      Nat.testBit_lt_two_pow
        (lt_of_lt_of_le hb (Nat.pow_le_pow_right (by norm_num) hge))
    simp [hi, hge, hbi]

theorem lor_c000 {off : Nat} (h : off < 16384) : 0xC000 ||| off = 49152 + off := by
  have h2 : off < 2 ^ 14 := by norm_num; omega
  have h3 := shiftLeft_lor_eq_add (a := 3) (n := 14) (b := off) h2
  have h4 : (3 : Nat) <<< 14 = 0xC000 := by decide
  rw [h4] at h3
  rw [h3]
  norm_num

theorem flagsWord_eq (h : DNSHeader) (hv : ValidHeader h) :
    h.flagsWord = h.qr * 32768 + h.opcode * 2048 + h.aa * 1024 + h.tc * 512 +
      h.rd * 256 + h.ra * 128 + h.z * 16 + h.rcode := by
  obtain ⟨-, hqr, hop, haa, htc, hrd, hra, hz, hrc, -, -, -, -⟩ := hv
  unfold DNSHeader.flagsWord
  simp only [Nat.lor_assoc]
  rw [shiftLeft_lor_eq_add (show h.rcode < 2 ^ 4 by norm_num; omega)]
  rw [shiftLeft_lor_eq_add (show h.z * 2 ^ 4 + h.rcode < 2 ^ 7 by norm_num; omega)]
  rw [shiftLeft_lor_eq_add
    (show h.ra * 2 ^ 7 + (h.z * 2 ^ 4 + h.rcode) < 2 ^ 8 by norm_num; omega)]
  rw [shiftLeft_lor_eq_add
    (show h.rd * 2 ^ 8 + (h.ra * 2 ^ 7 + (h.z * 2 ^ 4 + h.rcode)) < 2 ^ 9 by
      norm_num; omega)]
  rw [shiftLeft_lor_eq_add
    (show h.tc * 2 ^ 9 + (h.rd * 2 ^ 8 + (h.ra * 2 ^ 7 + (h.z * 2 ^ 4 + h.rcode))) < 2 ^ 10 by
      norm_num; omega)]
  rw [shiftLeft_lor_eq_add
    (show h.aa * 2 ^ 10 +
        (h.tc * 2 ^ 9 + (h.rd * 2 ^ 8 + (h.ra * 2 ^ 7 + (h.z * 2 ^ 4 + h.rcode)))) < 2 ^ 11 by
      norm_num; omega)]
  rw [shiftLeft_lor_eq_add
    (show h.opcode * 2 ^ 11 +
        (h.aa * 2 ^ 10 +
          (h.tc * 2 ^ 9 + (h.rd * 2 ^ 8 + (h.ra * 2 ^ 7 + (h.z * 2 ^ 4 + h.rcode))))) < 2 ^ 15 by
      norm_num; omega)]
  norm_num
  ring

theorem flagsWord_lt (h : DNSHeader) (hv : ValidHeader h) : h.flagsWord < 65536 := by
  rw [flagsWord_eq h hv]
  obtain ⟨-, hqr, hop, haa, htc, hrd, hra, hz, hrc, -, -, -, -⟩ := hv
  omega

theorem and_one_eq_mod (x : Nat) : x &&& 1 = x % 2 :=
  Nat.and_pow_two_sub_one_eq_mod x 1

theorem and_seven_eq_mod (x : Nat) : x &&& 7 = x % 8 :=
  Nat.and_pow_two_sub_one_eq_mod x 3

theorem and_fifteen_eq_mod (x : Nat) : x &&& 15 = x % 16 :=
  Nat.and_pow_two_sub_one_eq_mod x 4

theorem and_3fff_eq_mod (x : Nat) : x &&& 16383 = x % 16384 := by
  have h := Nat.and_pow_two_sub_one_eq_mod x 14
  norm_num at h
  exact h

theorem pack_eq_hdrBytes (h : DNSHeader) (hv : ValidHeader h) :
    h.pack = .ok (hdrBytes h) := by
  have hfl := flagsWord_lt h hv
  obtain ⟨hid, -, -, -, -, -, -, -, -, hqd, han, hns, har⟩ := hv
  simp only [DNSHeader.pack, toBytes2, if_pos, hid, hfl, hqd, han, hns, har, if_true]
  rfl

theorem from_buffer_hdrBytes (h : DNSHeader) (hv : ValidHeader h) (rest : List Nat) :
    DNSHeader.from_buffer ((hdrBytes h ++ rest).take 12) = .ok h := by
  have htake : (hdrBytes h ++ rest).take 12 = hdrBytes h := List.take_left' rfl
  rw [htake]
  have hF := flagsWord_eq h hv
  have hFlt := flagsWord_lt h hv
  have hid : h.id < 65536 := hv.1
  have hqr : h.qr < 2 := hv.2.1
  have hop : h.opcode < 16 := hv.2.2.1
  have haa : h.aa < 2 := hv.2.2.2.1
  have htc : h.tc < 2 := hv.2.2.2.2.1
  have hrd : h.rd < 2 := hv.2.2.2.2.2.1
  have hra : h.ra < 2 := hv.2.2.2.2.2.2.1
  have hz : h.z < 8 := hv.2.2.2.2.2.2.2.1
  have hrc : h.rcode < 16 := hv.2.2.2.2.2.2.2.2.1
  have hqd : h.qdcount < 65536 := hv.2.2.2.2.2.2.2.2.2.1
  have han : h.ancount < 65536 := hv.2.2.2.2.2.2.2.2.2.2.1
  have hns : h.nscount < 65536 := hv.2.2.2.2.2.2.2.2.2.2.2.1
  have har : h.arcount < 65536 := hv.2.2.2.2.2.2.2.2.2.2.2.2
  have hstep : DNSHeader.from_buffer (hdrBytes h) = .ok
      { id := h.id / 256 * 256 + h.id % 256
        qr := ((h.flagsWord / 256 * 256 + h.flagsWord % 256) >>> 15) &&& 1
        opcode := ((h.flagsWord / 256 * 256 + h.flagsWord % 256) >>> 11) &&& 15
        aa := ((h.flagsWord / 256 * 256 + h.flagsWord % 256) >>> 10) &&& 1
        tc := ((h.flagsWord / 256 * 256 + h.flagsWord % 256) >>> 9) &&& 1
        rd := ((h.flagsWord / 256 * 256 + h.flagsWord % 256) >>> 8) &&& 1
        ra := ((h.flagsWord / 256 * 256 + h.flagsWord % 256) >>> 7) &&& 1
        z := ((h.flagsWord / 256 * 256 + h.flagsWord % 256) >>> 4) &&& 7
        rcode := (h.flagsWord / 256 * 256 + h.flagsWord % 256) &&& 15
        qdcount := h.qdcount / 256 * 256 + h.qdcount % 256
        ancount := h.ancount / 256 * 256 + h.ancount % 256
        nscount := h.nscount / 256 * 256 + h.nscount % 256
        arcount := h.arcount / 256 * 256 + h.arcount % 256 } := rfl
  rw [hstep]
  have hbe : h.flagsWord / 256 * 256 + h.flagsWord % 256 = h.flagsWord := by omega
  rw [hbe, hF]
  refine congrArg Except.ok ?_
  cases h with
  | mk id qr opcode aa tc rd ra z rcode qdcount ancount nscount arcount =>
    dsimp only at hF hid hqr hop haa htc hrd hra hz hrc hqd han hns har ⊢
    simp only [DNSHeader.mk.injEq]
    simp only [Nat.shiftRight_eq_div_pow, and_one_eq_mod, and_seven_eq_mod, and_fifteen_eq_mod]
    norm_num
    refine ⟨by omega, ?_, ?_, ?_, ?_, ?_, ?_, ?_, ?_, by omega, by omega, by omega, by omega⟩ <;>
      omega

theorem getAt' {buf : List Nat} {pre : List Nat} {x : Nat} {rest : List Nat} {idx : Nat}
    (hbuf : buf = pre ++ x :: rest) (hidx : idx = pre.length) :
    buf[idx]? = some x := by
  subst hbuf
  subst hidx
  rw [List.getElem?_append_right (le_refl pre.length)]
  simp

theorem sliceAt {buf pre mid post : List Nat} {idx k : Nat}
    (hbuf : buf = pre ++ mid ++ post) (hidx : idx = pre.length) (hk : k = mid.length) :
    (buf.drop idx).take k = mid := by
  subst hbuf
  subst hidx
  subst hk
  rw [List.append_assoc, List.drop_left, List.take_left]

theorem readExact_at {buf pre mid post : List Nat} {idx k : Nat}
    (hbuf : buf = pre ++ mid ++ post) (hidx : idx = pre.length) (hk : k = mid.length) :
    readExact buf idx k = .ok mid := by
  have hslice := sliceAt hbuf hidx hk
  unfold readExact
  rw [if_pos]
  · rw [hslice]
  · subst hbuf hidx hk
    simp [List.length_append]

theorem encLabelsBytes_len_ge : ∀ ls : List (List Char), ls.length ≤ (encLabelsBytes ls).length
  | [] => Nat.zero_le _
  | l :: ls => by
    have := encLabelsBytes_len_ge ls
    simp [encLabelsBytes]
    omega

theorem label_not_pointer {n : Nat} (h : n ≤ 63) : ¬ (n &&& 0xC0 = 0xC0) := by
  intro hc
  have h1 : n &&& 0xC0 ≤ n := Nat.and_le_left
  omega

theorem decodeGo_encLabels :
    ∀ (ls : List (List Char)) (buf pre post : List Nat) (fuel : Nat)
      (visited : List Nat) (acc : List (List Char)),
      buf = pre ++ encLabelsBytes ls ++ [0] ++ post →
      (∀ l ∈ ls, ValidLabel l) →
      ls.length + 1 ≤ fuel →
      (∀ v ∈ visited, v < pre.length) →
      decodeNameGo buf fuel pre.length visited acc =
        .ok (joinDots (acc ++ ls), pre.length + (encLabelsBytes ls).length + 1)
  | [], buf, pre, post, fuel, visited, acc, hbuf, _, hfuel, hvis => by
    cases fuel with
    | zero => omega
    | succ f =>
      rw [decodeNameGo]
      rw [if_neg (fun hmem => absurd (hvis _ hmem) (lt_irrefl _))]
      rw [getAt' (show buf = pre ++ 0 :: post by simpa [encLabelsBytes] using hbuf) rfl]
      dsimp only
      simp [encLabelsBytes]
  | l :: ls, buf, pre, post, fuel, visited, acc, hbuf, hval, hfuel, hvis => by
    have hvl : ValidLabel l := hval l (by simp)
    obtain ⟨hl1, hl63, hlascii⟩ := hvl
    cases fuel with
    | zero => omega
    | succ f =>
      rw [decodeNameGo]
      rw [if_neg (fun hmem => absurd (hvis _ hmem) (lt_irrefl _))]
      rw [getAt' (show buf = pre ++ l.length :: (l.map Char.toNat ++
        (encLabelsBytes ls ++ [0] ++ post)) by
          simpa [encLabelsBytes, List.append_assoc] using hbuf) rfl]
      dsimp only
      rw [if_neg (show ¬ l.length = 0 by omega)]
      rw [if_neg (label_not_pointer hl63)]
      have hslice : sliceDecodeAscii buf (pre.length + 1) l.length = .ok l := by
        unfold sliceDecodeAscii
        rw [@sliceAt buf (pre ++ [l.length]) (l.map Char.toNat)
          (encLabelsBytes ls ++ [0] ++ post) (pre.length + 1) l.length
          (by simpa [encLabelsBytes, List.append_assoc] using hbuf)
          (by simp) (by simp)]
        rw [if_pos]
        · refine congrArg Except.ok ?_
          rw [List.map_map]
          exact (List.map_congr_left (fun c _ => Char.ofNat_toNat c)).trans (List.map_id l)
        · simp only [List.all_eq_true]
          intro b hb
          obtain ⟨c, hc, hcb⟩ := List.mem_map.mp hb
          subst hcb
          simpa using hlascii c hc
      rw [hslice]
      have ih := decodeGo_encLabels ls buf (pre ++ [l.length] ++ l.map Char.toNat) post f
        (pre.length :: visited) (acc ++ [l])
        (by simpa [encLabelsBytes, List.append_assoc] using hbuf)
        (fun x hx => hval x (by simp [hx]))
        (by simpa using Nat.succ_le_succ_iff.mp hfuel)
        (by
          intro v hv
          have hlen2 : (pre ++ [l.length] ++ l.map Char.toNat).length =
              pre.length + 1 + l.length := by
            simp only [List.length_append, List.length_map, List.length_cons,
              List.length_nil]
          rcases List.mem_cons.mp hv with rfl | hvin
          · rw [hlen2]
            omega
          · have := hvis v hvin
            rw [hlen2]
            omega)
      have hidx : (pre ++ [l.length] ++ l.map Char.toNat).length = pre.length + 1 + l.length := by
        simp only [List.length_append, List.length_map, List.length_cons, List.length_nil]
      rw [hidx] at ih
      dsimp only
      rw [ih]
      have hlabels : (acc ++ [l]) ++ ls = acc ++ l :: ls := by simp
      have hlen : pre.length + 1 + l.length + (encLabelsBytes ls).length + 1 =
          pre.length + (encLabelsBytes (l :: ls)).length + 1 := by
        simp only [encLabelsBytes, List.length_append, List.length_map, List.length_cons]
        omega
      rw [hlabels, hlen]

theorem encN_len_ge (name : List Char) :
    (splitOnDot name).length + 1 ≤ (encN name).length := by
  simp only [encN, List.length_append, List.length_cons, List.length_nil]
  have := encLabelsBytes_len_ge (splitOnDot name)
  omega

theorem encode_name_eq {name : List Char} (hv : ValidName name) :
    encode_name_uncompressed name = .ok (encN name) := by
  have h := encodeLabels_ok (splitOnDot name)
    (fun l hl => ⟨(hv l hl).2.1.trans (by norm_num), (hv l hl).2.2⟩)
  simp only [encode_name_uncompressed, h, encN]
  rfl

theorem decode_encN (name : List Char) (buf pre post : List Nat) (fuel : Nat)
    (hbuf : buf = pre ++ encN name ++ post) (hv : ValidName name)
    (hfuel : (splitOnDot name).length + 1 ≤ fuel) :
    decode_name buf pre.length fuel = .ok (name, pre.length + (encN name).length) := by
  unfold decode_name
  have h := decodeGo_encLabels (splitOnDot name) buf pre post fuel [] []
    (by simpa [encN, List.append_assoc] using hbuf) hv hfuel (by simp)
  rw [h, List.nil_append, joinDots_splitOnDot]
  have hlen : pre.length + (encLabelsBytes (splitOnDot name)).length + 1 =
      pre.length + (encN name).length := by
    simp only [encN, List.length_append, List.length_cons, List.length_nil]
    omega
  rw [hlen]

theorem hi_and_c0 : ∀ d : Nat, d < 64 → (192 + d) &&& 192 = 192 := by decide

theorem decode_ptr (name : List Char) (buf pre post pre2 post2 : List Nat)
    (fuel off : Nat)
    (hbuf : buf = pre ++ ptrBytes off ++ post)
    (hbuf2 : buf = pre2 ++ encN name ++ post2)
    (hoff : pre2.length = off) (hlt : off < 16384)
    (hv : ValidName name)
    (hfuel : (splitOnDot name).length + 2 ≤ fuel) :
    decode_name buf pre.length fuel = .ok (name, pre.length + 2) := by
  cases fuel with
  | zero => omega
  | succ f =>
    unfold decode_name
    rw [decodeNameGo]
    rw [if_neg (by simp)]
    have hb0 : (0xC000 ||| off) / 256 = 192 + off / 256 := by rw [lor_c000 hlt]; omega
    have hb1 : (0xC000 ||| off) % 256 = off % 256 := by rw [lor_c000 hlt]; omega
    have hptr : ptrBytes off = [192 + off / 256, off % 256] := by
      simp only [ptrBytes, hb0, hb1]
    rw [getAt' (show buf = pre ++ (192 + off / 256) :: (off % 256 :: post) by
      rw [hbuf, hptr]; simp) rfl]
    dsimp only
    rw [if_neg (show ¬ (192 + off / 256 = 0) by omega)]
    rw [if_pos (hi_and_c0 (off / 256) (by omega))]
    rw [@readExact_at buf pre (ptrBytes off) post pre.length 2 hbuf rfl (by simp [ptrBytes])]
    dsimp only
    rw [hptr]
    have hval : ((([(192 + off / 256), (off % 256)] : List Nat).getD 0 0) * 256 +
        (([(192 + off / 256), (off % 256)] : List Nat).getD 1 0)) &&& 16383 = off := by
      simp only [List.getD_cons_zero, List.getD_cons_succ]
      rw [and_3fff_eq_mod]
      omega
    rw [hval]
    have hsub : decodeNameGo buf f off [] [] = .ok (name, off + (encN name).length) := by
      have := decode_encN name buf pre2 post2 f hbuf2 hv (by omega)
      unfold decode_name at this
      rw [hoff] at this
      exact this
    rw [hsub]
    dsimp only
    rw [show joinDots ([] ++ [name]) = name from rfl]

theorem question_pack_eq {q : DNSQuestion} (ht : q.type_ < 65536)
    (hc : q.class_ < 65536) (en : List Nat) :
    q.pack en = .ok (en ++ tcBytes q) := by
  simp only [DNSQuestion.pack, toBytes2, if_pos, ht, hc, if_true, List.append_assoc]
  rfl

theorem answer_pack_eq {a : DNSAnswer} (ht : a.type_ < 65536)
    (hc : a.class_ < 65536) (httl : a.ttl < 4294967296) (hrl : a.rdlength < 65536)
    (en : List Nat) :
    a.pack en = .ok (en ++ (aFieldBytes a ++ a.rdata)) := by
  simp only [DNSAnswer.pack, toBytes2, toBytes4, if_pos, ht, hc, httl, hrl, if_true,
    List.append_assoc]
  rfl

theorem except_bind_ok {alpha beta : Type} (x : alpha) (f : alpha → Except Err beta) :
    (Except.ok x >>= f) = f x := rfl

theorem except_bind_error {alpha beta : Type} (e : Err) (f : alpha → Except Err beta) :
    ((Except.error e : Except Err alpha) >>= f) = Except.error e := rfl

theorem unpackQuestion1_of (q : DNSQuestion) (buf : List Nat) (idx j fuel : Nat)
    (hname : decode_name buf idx fuel = .ok (q.decoded_name, j))
    (pre post : List Nat) (hbuf : buf = pre ++ tcBytes q ++ post)
    (hj : j = pre.length)
    (ht : q.type_ < 65536) (hc : q.class_ < 65536) :
    unpackQuestion1 buf fuel idx = .ok (q, j + 4) := by
  unfold unpackQuestion1
  rw [hname, except_bind_ok]
  try simp only []
  rw [readExact_at hbuf hj (show (4 : Nat) = (tcBytes q).length from rfl), except_bind_ok]
  simp only [tcBytes, List.getD_cons_zero, List.getD_cons_succ]
  have hx : beWord (q.type_ / 256) (q.type_ % 256) = q.type_ := by
    unfold beWord; omega
  have hy : beWord (q.class_ / 256) (q.class_ % 256) = q.class_ := by
    unfold beWord; omega
  rw [hx, hy]
  rfl

theorem unpackAnswer1_of (a : DNSAnswer) (buf : List Nat) (idx j fuel : Nat)
    (hname : decode_name buf idx fuel = .ok (a.decoded_name, j))
    (pre post : List Nat) (hbuf : buf = pre ++ (aFieldBytes a ++ (a.rdata ++ post)))
    (hj : j = pre.length)
    (ht : a.type_ < 65536) (hc : a.class_ < 65536) (httl : a.ttl < 4294967296)
    (hrl : a.rdlength < 65536) (hrdata : a.rdlength = a.rdata.length) :
    unpackAnswer1 buf fuel idx = .ok (a, j + 10 + a.rdlength) := by
  unfold unpackAnswer1
  rw [hname, except_bind_ok]
  try simp only []
  rw [@readExact_at buf pre
    [a.type_ / 256, a.type_ % 256, a.class_ / 256, a.class_ % 256]
    ([a.ttl / 16777216, a.ttl / 65536 % 256, a.ttl / 256 % 256, a.ttl % 256,
      a.rdlength / 256, a.rdlength % 256] ++ (a.rdata ++ post)) j 4
    (by rw [hbuf]; simp [aFieldBytes, List.append_assoc]) hj rfl, except_bind_ok]
  try simp only []
  rw [@readExact_at buf
    (pre ++ [a.type_ / 256, a.type_ % 256, a.class_ / 256, a.class_ % 256])
    [a.ttl / 16777216, a.ttl / 65536 % 256, a.ttl / 256 % 256, a.ttl % 256]
    ([a.rdlength / 256, a.rdlength % 256] ++ (a.rdata ++ post)) (j + 4) 4
    (by rw [hbuf]; simp [aFieldBytes, List.append_assoc])
    (by rw [hj]; simp) rfl, except_bind_ok]
  try simp only []
  rw [@readExact_at buf
    (pre ++ [a.type_ / 256, a.type_ % 256, a.class_ / 256, a.class_ % 256,
      a.ttl / 16777216, a.ttl / 65536 % 256, a.ttl / 256 % 256, a.ttl % 256])
    [a.rdlength / 256, a.rdlength % 256]
    (a.rdata ++ post) (j + 8) 2
    (by rw [hbuf]; simp [aFieldBytes, List.append_assoc])
    (by rw [hj]; simp) rfl, except_bind_ok]
  simp only [List.getD_cons_zero, List.getD_cons_succ]
  have hrlw : beWord (a.rdlength / 256) (a.rdlength % 256) = a.rdlength := by
    unfold beWord; omega
  rw [hrlw]
  have hslice : (buf.drop (j + 10)).take a.rdlength = a.rdata := by
    rw [hrdata]
    refine @sliceAt buf
      (pre ++ [a.type_ / 256, a.type_ % 256, a.class_ / 256, a.class_ % 256,
        a.ttl / 16777216, a.ttl / 65536 % 256, a.ttl / 256 % 256, a.ttl % 256,
        a.rdlength / 256, a.rdlength % 256]) a.rdata post (j + 10) a.rdata.length ?_ ?_ rfl
    · rw [hbuf]; simp [aFieldBytes, List.append_assoc]
    · rw [hj]; simp
  rw [hslice]
  have hx : beWord (a.type_ / 256) (a.type_ % 256) = a.type_ := by unfold beWord; omega
  have hy : beWord (a.class_ / 256) (a.class_ % 256) = a.class_ := by unfold beWord; omega
  have httlw : ((a.ttl / 16777216 * 256 + a.ttl / 65536 % 256) * 256 +
      a.ttl / 256 % 256) * 256 + a.ttl % 256 = a.ttl := by omega
  rw [hx, hy, httlw]
  rfl

theorem packQuestionsU_ok :
    ∀ qs : List DNSQuestion, (∀ q ∈ qs, ValidQuestion q) →
      packQuestionsU qs = .ok (qsBytesU qs)
  | [], _ => rfl
  | q :: qs, h => by
    have hq := h q (by simp)
    simp only [packQuestionsU, encode_name_eq hq.1, question_pack_eq hq.2.1 hq.2.2,
      packQuestionsU_ok qs (fun x hx => h x (by simp [hx])), qsBytesU, qBytesU]
    rfl

theorem packAnswersU_ok :
    ∀ as : List DNSAnswer, (∀ a ∈ as, ValidAnswer a) →
      packAnswersU as = .ok (asBytesU as)
  | [], _ => rfl
  | a :: as, h => by
    have ha := h a (by simp)
    simp only [packAnswersU, encode_name_eq ha.1,
      answer_pack_eq ha.2.1 ha.2.2.1 ha.2.2.2.1 ha.2.2.2.2.1,
      packAnswersU_ok as (fun x hx => h x (by simp [hx])), asBytesU, aBytesU]
    rw [except_bind_ok, except_bind_ok, except_bind_ok]
    try simp only []
    simp [List.append_assoc]
    rfl

theorem unpackQuestionsGo_U :
    ∀ (qs : List DNSQuestion) (buf pre post : List Nat) (fuel : Nat),
      buf = pre ++ qsBytesU qs ++ post →
      (∀ q ∈ qs, ValidQuestion q) →
      buf.length + 2 ≤ fuel →
      unpackQuestionsGo buf fuel pre.length qs.length =
        .ok (qs, pre.length + (qsBytesU qs).length)
  | [], buf, pre, post, fuel, hbuf, _, _ => by
    simp [unpackQuestionsGo, qsBytesU]
  | q :: qs, buf, pre, post, fuel, hbuf, hval, hfuel => by
    have hq := hval q (by simp)
    have henclen : (encN q.decoded_name).length + 4 ≤ buf.length := by
      rw [hbuf]
      simp [qsBytesU, qBytesU, tcBytes]
      omega
    have hname : decode_name buf pre.length fuel =
        .ok (q.decoded_name, pre.length + (encN q.decoded_name).length) :=
      decode_encN q.decoded_name buf pre (tcBytes q ++ (qsBytesU qs ++ post)) fuel
        (by rw [hbuf]; simp [qsBytesU, qBytesU, List.append_assoc])
        hq.1
        (by have := encN_len_ge q.decoded_name; omega)
    have hstep := unpackQuestion1_of q buf pre.length
      (pre.length + (encN q.decoded_name).length) fuel hname
      (pre ++ encN q.decoded_name) (qsBytesU qs ++ post)
      (by rw [hbuf]; simp [qsBytesU, qBytesU, List.append_assoc])
      (by simp) hq.2.1 hq.2.2
    have ih := unpackQuestionsGo_U qs buf (pre ++ qBytesU q) post fuel
      (by rw [hbuf]; simp [qsBytesU, List.append_assoc])
      (fun x hx => hval x (by simp [hx])) hfuel
    rw [show (q :: qs).length = qs.length + 1 from rfl, unpackQuestionsGo]
    rw [hstep, except_bind_ok]
    try simp only []
    have hidx : pre.length + (encN q.decoded_name).length + 4 = (pre ++ qBytesU q).length := by
      simp [qBytesU, tcBytes]
      omega
    rw [hidx, ih, except_bind_ok]
    have hlen : (pre ++ qBytesU q).length + (qsBytesU qs).length =
        pre.length + (qsBytesU (q :: qs)).length := by
      simp [qsBytesU, qBytesU]
      omega
    rw [hlen]
    rfl

theorem unpackAnswersGo_U :
    ∀ (as : List DNSAnswer) (buf pre post : List Nat) (fuel : Nat),
      buf = pre ++ asBytesU as ++ post →
      (∀ a ∈ as, ValidAnswer a) →
      buf.length + 2 ≤ fuel →
      unpackAnswersGo buf fuel pre.length as.length =
        .ok (as, pre.length + (asBytesU as).length)
  | [], buf, pre, post, fuel, hbuf, _, _ => by
    simp [unpackAnswersGo, asBytesU]
  | a :: as, buf, pre, post, fuel, hbuf, hval, hfuel => by
    have ha := hval a (by simp)
    have henclen : (encN a.decoded_name).length + 4 ≤ buf.length := by
      rw [hbuf]
      simp [asBytesU, aBytesU, aFieldBytes]
      omega
    have hname : decode_name buf pre.length fuel =
        .ok (a.decoded_name, pre.length + (encN a.decoded_name).length) :=
      decode_encN a.decoded_name buf pre (aFieldBytes a ++ a.rdata ++ (asBytesU as ++ post)) fuel
        (by rw [hbuf]; simp [asBytesU, aBytesU, List.append_assoc])
        ha.1
        (by have := encN_len_ge a.decoded_name; omega)
    have hstep := unpackAnswer1_of a buf pre.length
      (pre.length + (encN a.decoded_name).length) fuel hname
      (pre ++ encN a.decoded_name) (asBytesU as ++ post)
      (by rw [hbuf]; simp [asBytesU, aBytesU, List.append_assoc])
      (by simp) ha.2.1 ha.2.2.1 ha.2.2.2.1 ha.2.2.2.2.1 ha.2.2.2.2.2.1
    have ih := unpackAnswersGo_U as buf (pre ++ aBytesU a) post fuel
      (by rw [hbuf]; simp [asBytesU, List.append_assoc])
      (fun x hx => hval x (by simp [hx])) hfuel
    rw [show (a :: as).length = as.length + 1 from rfl, unpackAnswersGo]
    rw [hstep, except_bind_ok]
    try simp only []
    have hidx : pre.length + (encN a.decoded_name).length + 10 + a.rdlength =
        (pre ++ aBytesU a).length := by
      simp [aBytesU, aFieldBytes]
      have := ha.2.2.2.2.2.1
      omega
    rw [hidx, ih, except_bind_ok]
    have hlen : (pre ++ aBytesU a).length + (asBytesU as).length =
        pre.length + (asBytesU (a :: as)).length := by
      simp [asBytesU, aBytesU]
      omega
    rw [hlen]
    rfl

theorem toBytes2_ok {v : Nat} {l : List Nat} (h : toBytes2 v = .ok l) :
    v < 65536 ∧ l = [v / 256, v % 256] := by
  unfold toBytes2 at h
  split at h
  · next hv => exact ⟨hv, ((Except.ok.injEq _ _).mp h).symm⟩
  · exact absurd h (by simp)

theorem lookupName_some {m : List (List Char × Nat)} {k : List Char} {off : Nat}
    (h : lookupName m k = some off) : (k, off) ∈ m := by
  unfold lookupName at h
  cases hf : m.find? (fun e => e.1 = k) with
  | none => rw [hf] at h; exact absurd h (by simp)
  | some e =>
    rw [hf] at h
    have hk : e.1 = k := by
      have hk0 := List.find?_some hf
      simpa using hk0
    have hoff : e.2 = off := Option.some.inj h
    have hmem := List.mem_of_find?_eq_some hf
    rw [← hk, ← hoff]
    exact hmem

theorem MapInv_ext {m : List (List Char × Nat)} {B ext : List Nat}
    (h : MapInv m B) : MapInv m (B ++ ext) := by
  intro p hp
  obtain ⟨hvn, pre2, post2, hB, hlen⟩ := h p hp
  exact ⟨hvn, pre2, post2 ++ ext, by rw [hB]; simp [List.append_assoc], hlen⟩

theorem MapInv_snoc {m : List (List Char × Nat)} {B : List Nat}
    (h : MapInv m B) (name : List Char) (tail : List Nat) (hvn : ValidName name) :
    MapInv (m ++ [(name, B.length)]) (B ++ (encN name ++ tail)) := by
  intro p hp
  rcases List.mem_append.mp hp with hold | hnew
  · exact MapInv_ext h p hold
  · have hpe : p = (name, B.length) := by simpa using hnew
    subst hpe
    exact ⟨hvn, B, tail, by simp [List.append_assoc], rfl⟩

theorem encN_len_pos (name : List Char) : 1 ≤ (encN name).length := by
  simp [encN]

theorem packQuestionsC_spec :
    ∀ (qs : List DNSQuestion) (m : List (List Char × Nat)) (B B' : List Nat)
      (m' : List (List Char × Nat)),
      (∀ q ∈ qs, ValidQuestion q) →
      MapInv m B →
      packQuestionsC m B qs = .ok (B', m') →
      (∃ ext, B' = B ++ ext) ∧ MapInv m' B' ∧
      ∀ (post : List Nat) (fuel : Nat),
        B'.length ≤ 16384 →
        (B' ++ post).length + 2 ≤ fuel →
        unpackQuestionsGo (B' ++ post) fuel B.length qs.length = .ok (qs, B'.length)
  | [], m, B, B', m', _, hinv, hpack => by
    rw [packQuestionsC] at hpack
    obtain ⟨hB, hm⟩ : B = B' ∧ m = m' := by
      have h2 := (Except.ok.injEq _ _).mp hpack
      exact ⟨congrArg Prod.fst h2, congrArg Prod.snd h2⟩
    subst hB
    subst hm
    refine ⟨⟨[], by simp⟩, hinv, fun post fuel _ _ => ?_⟩
    rfl
  | q :: qs, m, B, B', m', hval, hinv, hpack => by
    have hq := hval q (by simp)
    rw [packQuestionsC] at hpack
    cases hlook : lookupName m q.decoded_name with
    | some off =>
      cases hE : toBytes2 (0xC000 ||| off) with
      | error e =>
        simp only [hlook, hE, except_bind_error] at hpack
        exact absurd hpack (by simp)
      | ok en =>
        obtain ⟨hlt16, hen⟩ := toBytes2_ok hE
        have hener : en = ptrBytes off := by rw [hen]; rfl
        subst hener
        simp only [hlook, hE, except_bind_ok, question_pack_eq hq.2.1 hq.2.2] at hpack
        obtain ⟨⟨ext, hB'⟩, hinv', hdec⟩ := packQuestionsC_spec qs m
          (B ++ (ptrBytes off ++ tcBytes q)) B' m'
          (fun x hx => hval x (by simp [hx])) (MapInv_ext hinv) hpack
        refine ⟨⟨(ptrBytes off ++ tcBytes q) ++ ext, by rw [hB']; simp [List.append_assoc]⟩,
          hinv', fun post fuel hsmall hfuel => ?_⟩
        obtain ⟨hvn, pre2, post2, hBdec, hpre2len⟩ := hinv _ (lookupName_some hlook)
        dsimp only at hvn hBdec hpre2len
        have hBlen : B.length = pre2.length + ((encN q.decoded_name).length + post2.length) := by
          rw [hBdec]
          simp
        have hBB' : B.length + ((ptrBytes off).length + (tcBytes q).length) + ext.length
            = B'.length := by
          rw [hB']
          simp only [List.length_append]
          try omega
        have hofflt : off < 16384 := by
          have h2 := encN_len_pos q.decoded_name
          omega
        have hencB : (encN q.decoded_name).length ≤ B.length := by omega
        have hFlen : (B' ++ post).length = B'.length + post.length := by simp
        have hname : decode_name (B' ++ post) B.length fuel =
            .ok (q.decoded_name, B.length + 2) := by
          refine decode_ptr q.decoded_name (B' ++ post) B (tcBytes q ++ (ext ++ post))
            pre2 (post2 ++ ((ptrBytes off ++ tcBytes q) ++ ext ++ post)) fuel off
            ?_ ?_ hpre2len hofflt hvn ?_
          · rw [hB']
            simp [List.append_assoc]
          · rw [hB', hBdec]
            simp [List.append_assoc]
          · have h2 := encN_len_ge q.decoded_name
            simp only [ptrBytes, tcBytes] at hBB'
            omega
        have hstep := unpackQuestion1_of q (B' ++ post) B.length (B.length + 2) fuel hname
          (B ++ ptrBytes off) (ext ++ post)
          (by rw [hB']; simp [List.append_assoc])
          (by simp [ptrBytes]) hq.2.1 hq.2.2
        rw [show (q :: qs).length = qs.length + 1 from rfl, unpackQuestionsGo, hstep,
          except_bind_ok]
        try simp only []
        have hidx : B.length + 2 + 4 = (B ++ (ptrBytes off ++ tcBytes q)).length := by
          simp only [List.length_append, ptrBytes, tcBytes, List.length_cons, List.length_nil]
          try omega
        rw [hidx, hdec post fuel hsmall hfuel, except_bind_ok]
        rfl
    | none =>
      cases hE : encode_name_uncompressed q.decoded_name with
      | error e =>
        rw [encode_name_eq hq.1] at hE
        exact absurd hE (by simp)
      | ok en =>
        have hener : en = encN q.decoded_name := by
          rw [encode_name_eq hq.1] at hE
          exact (Except.ok.inj hE).symm
        subst hener
        simp only [hlook, encode_name_eq hq.1, except_bind_ok,
          question_pack_eq hq.2.1 hq.2.2] at hpack
        obtain ⟨⟨ext, hB'⟩, hinv', hdec⟩ := packQuestionsC_spec qs
          (m ++ [(q.decoded_name, B.length)])
          (B ++ (encN q.decoded_name ++ tcBytes q)) B' m'
          (fun x hx => hval x (by simp [hx]))
          (MapInv_snoc hinv q.decoded_name (tcBytes q) hq.1) hpack
        refine ⟨⟨(encN q.decoded_name ++ tcBytes q) ++ ext, by
          rw [hB']; simp [List.append_assoc]⟩, hinv', fun post fuel hsmall hfuel => ?_⟩
        have hBB' : B.length + ((encN q.decoded_name).length + (tcBytes q).length) + ext.length
            = B'.length := by
          rw [hB']
          simp only [List.length_append]
          try omega
        have hname : decode_name (B' ++ post) B.length fuel =
            .ok (q.decoded_name, B.length + (encN q.decoded_name).length) := by
          refine decode_encN q.decoded_name (B' ++ post) B (tcBytes q ++ (ext ++ post)) fuel
            ?_ hq.1 ?_
          · rw [hB']
            simp [List.append_assoc]
          · have h2 := encN_len_ge q.decoded_name
            have hFlen : (B' ++ post).length = B'.length + post.length := by simp
            simp only [tcBytes, List.length_cons, List.length_nil] at hBB'
            omega
        have hstep := unpackQuestion1_of q (B' ++ post) B.length
          (B.length + (encN q.decoded_name).length) fuel hname
          (B ++ encN q.decoded_name) (ext ++ post)
          (by rw [hB']; simp [List.append_assoc])
          (by simp [List.length_append]) hq.2.1 hq.2.2
        rw [show (q :: qs).length = qs.length + 1 from rfl, unpackQuestionsGo, hstep,
          except_bind_ok]
        try simp only []
        have hidx : B.length + (encN q.decoded_name).length + 4 =
            (B ++ (encN q.decoded_name ++ tcBytes q)).length := by
          simp only [List.length_append, tcBytes, List.length_cons, List.length_nil]
          try omega
        rw [hidx, hdec post fuel hsmall hfuel, except_bind_ok]
        rfl

theorem packAnswersC_spec :
    ∀ (as : List DNSAnswer) (m : List (List Char × Nat)) (B B' : List Nat)
      (m' : List (List Char × Nat)),
      (∀ a ∈ as, ValidAnswer a) →
      MapInv m B →
      packAnswersC m B as = .ok (B', m') →
      (∃ ext, B' = B ++ ext) ∧ MapInv m' B' ∧
      ∀ (post : List Nat) (fuel : Nat),
        B'.length ≤ 16384 →
        (B' ++ post).length + 2 ≤ fuel →
        unpackAnswersGo (B' ++ post) fuel B.length as.length = .ok (as, B'.length)
  | [], m, B, B', m', _, hinv, hpack => by
    rw [packAnswersC] at hpack
    obtain ⟨hB, hm⟩ : B = B' ∧ m = m' := by
      have h2 := (Except.ok.injEq _ _).mp hpack
      exact ⟨congrArg Prod.fst h2, congrArg Prod.snd h2⟩
    subst hB
    subst hm
    refine ⟨⟨[], by simp⟩, hinv, fun post fuel _ _ => ?_⟩
    rfl
  | a :: as, m, B, B', m', hval, hinv, hpack => by
    have ha := hval a (by simp)
    rw [packAnswersC] at hpack
    cases hlook : lookupName m a.decoded_name with
    | some off =>
      cases hE : toBytes2 (0xC000 ||| off) with
      | error e =>
        simp only [hlook, hE, except_bind_error] at hpack
        exact absurd hpack (by simp)
      | ok en =>
        obtain ⟨hlt16, hen⟩ := toBytes2_ok hE
        have hener : en = ptrBytes off := by rw [hen]; rfl
        subst hener
        simp only [hlook, hE, except_bind_ok,
          answer_pack_eq ha.2.1 ha.2.2.1 ha.2.2.2.1 ha.2.2.2.2.1] at hpack
        obtain ⟨⟨ext, hB'⟩, hinv', hdec⟩ := packAnswersC_spec as m
          (B ++ (ptrBytes off ++ (aFieldBytes a ++ a.rdata))) B' m'
          (fun x hx => hval x (by simp [hx])) (MapInv_ext hinv) hpack
        refine ⟨⟨(ptrBytes off ++ (aFieldBytes a ++ a.rdata)) ++ ext, by
          rw [hB']; simp [List.append_assoc]⟩, hinv', fun post fuel hsmall hfuel => ?_⟩
        obtain ⟨hvn, pre2, post2, hBdec, hpre2len⟩ := hinv _ (lookupName_some hlook)
        dsimp only at hvn hBdec hpre2len
        have hBlen : B.length = pre2.length + ((encN a.decoded_name).length + post2.length) := by
          rw [hBdec]
          simp
        have hBB' : B.length + ((ptrBytes off).length + ((aFieldBytes a).length +
            a.rdata.length)) + ext.length = B'.length := by
          rw [hB']
          simp only [List.length_append]
          try omega
        have hofflt : off < 16384 := by
          have h2 := encN_len_pos a.decoded_name
          omega
        have hFlen : (B' ++ post).length = B'.length + post.length := by simp
        have hname : decode_name (B' ++ post) B.length fuel =
            .ok (a.decoded_name, B.length + 2) := by
          refine decode_ptr a.decoded_name (B' ++ post) B
            (aFieldBytes a ++ a.rdata ++ (ext ++ post))
            pre2 (post2 ++ ((ptrBytes off ++ (aFieldBytes a ++ a.rdata)) ++ ext ++ post)) fuel off
            ?_ ?_ hpre2len hofflt hvn ?_
          · rw [hB']
            simp [List.append_assoc]
          · rw [hB', hBdec]
            simp [List.append_assoc]
          · have h2 := encN_len_ge a.decoded_name
            simp only [ptrBytes, List.length_cons, List.length_nil] at hBB'
            omega
        have hstep := unpackAnswer1_of a (B' ++ post) B.length (B.length + 2) fuel hname
          (B ++ ptrBytes off) (ext ++ post)
          (by rw [hB']; simp [List.append_assoc])
          (by simp [ptrBytes]) ha.2.1 ha.2.2.1 ha.2.2.2.1 ha.2.2.2.2.1 ha.2.2.2.2.2.1
        rw [show (a :: as).length = as.length + 1 from rfl, unpackAnswersGo, hstep,
          except_bind_ok]
        try simp only []
        have hidx : B.length + 2 + 10 + a.rdlength =
            (B ++ (ptrBytes off ++ (aFieldBytes a ++ a.rdata))).length := by
          have hrd := ha.2.2.2.2.2.1
          simp only [List.length_append, ptrBytes, aFieldBytes, List.length_cons,
            List.length_nil]
          omega
        rw [hidx, hdec post fuel hsmall hfuel, except_bind_ok]
        rfl
    | none =>
      cases hE : encode_name_uncompressed a.decoded_name with
      | error e =>
        rw [encode_name_eq ha.1] at hE
        exact absurd hE (by simp)
      | ok en =>
        have hener : en = encN a.decoded_name := by
          rw [encode_name_eq ha.1] at hE
          exact (Except.ok.inj hE).symm
        subst hener
        simp only [hlook, encode_name_eq ha.1, except_bind_ok,
          answer_pack_eq ha.2.1 ha.2.2.1 ha.2.2.2.1 ha.2.2.2.2.1] at hpack
        obtain ⟨⟨ext, hB'⟩, hinv', hdec⟩ := packAnswersC_spec as
          (m ++ [(a.decoded_name, B.length)])
          (B ++ (encN a.decoded_name ++ (aFieldBytes a ++ a.rdata))) B' m'
          (fun x hx => hval x (by simp [hx]))
          (MapInv_snoc hinv a.decoded_name (aFieldBytes a ++ a.rdata) ha.1) hpack
        refine ⟨⟨(encN a.decoded_name ++ (aFieldBytes a ++ a.rdata)) ++ ext, by
          rw [hB']; simp [List.append_assoc]⟩, hinv', fun post fuel hsmall hfuel => ?_⟩
        have hBB' : B.length + ((encN a.decoded_name).length + ((aFieldBytes a).length +
            a.rdata.length)) + ext.length = B'.length := by
          rw [hB']
          simp only [List.length_append]
          try omega
        have hname : decode_name (B' ++ post) B.length fuel =
            .ok (a.decoded_name, B.length + (encN a.decoded_name).length) := by
          refine decode_encN a.decoded_name (B' ++ post) B
            (aFieldBytes a ++ a.rdata ++ (ext ++ post)) fuel ?_ ha.1 ?_
          · rw [hB']
            simp [List.append_assoc]
          · have h2 := encN_len_ge a.decoded_name
            have hFlen : (B' ++ post).length = B'.length + post.length := by simp
            omega
        have hstep := unpackAnswer1_of a (B' ++ post) B.length
          (B.length + (encN a.decoded_name).length) fuel hname
          (B ++ encN a.decoded_name) (ext ++ post)
          (by rw [hB']; simp [List.append_assoc])
          (by simp [List.length_append]) ha.2.1 ha.2.2.1 ha.2.2.2.1 ha.2.2.2.2.1
          ha.2.2.2.2.2.1
        rw [show (a :: as).length = as.length + 1 from rfl, unpackAnswersGo, hstep,
          except_bind_ok]
        try simp only []
        have hidx : B.length + (encN a.decoded_name).length + 10 + a.rdlength =
            (B ++ (encN a.decoded_name ++ (aFieldBytes a ++ a.rdata))).length := by
          have hrd := ha.2.2.2.2.2.1
          simp only [List.length_append, aFieldBytes, List.length_cons, List.length_nil]
          omega
        rw [hidx, hdec post fuel hsmall hfuel, except_bind_ok]
        rfl

theorem optAns_of_count {as : List DNSAnswer} {n : Nat} (h : n = as.length) :
    (if n = 0 then (none : Option (List DNSAnswer)) else some as) = optAns as := by
  subst h
  cases as <;> simp [optAns]

theorem pack_unpack_uncompressed (h : DNSHeader) (qs : List DNSQuestion)
    (as : List DNSAnswer) (hv : ValidMsg h qs as) :
    pack_all_uncompressed h qs as = .ok (hdrBytes h ++ qsBytesU qs ++ asBytesU as) ∧
      ∀ fuel, (hdrBytes h ++ qsBytesU qs ++ asBytesU as).length + 2 ≤ fuel →
        unpack_allWithEnd (hdrBytes h ++ qsBytesU qs ++ asBytesU as) fuel =
          .ok (h, qs, optAns as, (hdrBytes h ++ qsBytesU qs ++ asBytesU as).length) := by
  obtain ⟨hvh, hvq, hva, hqd, han⟩ := hv
  constructor
  · simp only [pack_all_uncompressed, pack_eq_hdrBytes h hvh, packQuestionsU_ok qs hvq,
      packAnswersU_ok as hva, except_bind_ok]
    rfl
  · intro fuel hfuel
    unfold unpack_allWithEnd
    rw [show (hdrBytes h ++ qsBytesU qs ++ asBytesU as).take 12 =
        (hdrBytes h ++ (qsBytesU qs ++ asBytesU as)).take 12 by
      rw [List.append_assoc]]
    rw [from_buffer_hdrBytes h hvh (qsBytesU qs ++ asBytesU as), except_bind_ok]
    try simp only []
    rw [hqd, show (12 : Nat) = (hdrBytes h).length from rfl]
    rw [unpackQuestionsGo_U qs (hdrBytes h ++ qsBytesU qs ++ asBytesU as)
      (hdrBytes h) (asBytesU as) fuel rfl hvq hfuel, except_bind_ok]
    try simp only []
    rw [han, show (hdrBytes h).length + (qsBytesU qs).length =
        (hdrBytes h ++ qsBytesU qs).length by simp only [List.length_append]]
    rw [unpackAnswersGo_U as (hdrBytes h ++ qsBytesU qs ++ asBytesU as)
      (hdrBytes h ++ qsBytesU qs) [] fuel (by simp) hva hfuel, except_bind_ok]
    try simp only []
    rw [optAns_of_count rfl]
    rw [show (hdrBytes h ++ qsBytesU qs).length + (asBytesU as).length =
        (hdrBytes h ++ qsBytesU qs ++ asBytesU as).length by
      simp only [List.length_append]]
    rfl

theorem pack_unpack_compressed (h : DNSHeader) (qs : List DNSQuestion)
    (as : List DNSAnswer) (hv : ValidMsg h qs as) (cbuf : List Nat)
    (hpack : pack_all_compressed h qs as = .ok cbuf)
    (hsmall : cbuf.length ≤ 16384) :
    ∀ fuel, cbuf.length + 2 ≤ fuel →
      unpack_allWithEnd cbuf fuel = .ok (h, qs, optAns as, cbuf.length) := by
  obtain ⟨hvh, hvq, hva, hqd, han⟩ := hv
  intro fuel hfuel
  rw [pack_all_compressed] at hpack
  rw [pack_eq_hdrBytes h hvh, except_bind_ok] at hpack
  try simp only [] at hpack
  cases hq1 : packQuestionsC [] (hdrBytes h) qs with
  | error e => rw [hq1] at hpack; simp [except_bind_error] at hpack
  | ok r =>
    obtain ⟨r1, m1⟩ := r
    rw [hq1, except_bind_ok] at hpack
    try simp only [] at hpack
    cases ha1 : packAnswersC m1 r1 as with
    | error e => rw [ha1] at hpack; simp [except_bind_error] at hpack
    | ok r2 =>
      obtain ⟨B2, m2⟩ := r2
      rw [ha1, except_bind_ok] at hpack
      try simp only [] at hpack
      have hB2 : cbuf = B2 := by
        have h2 := (Except.ok.injEq _ _).mp hpack
        exact h2.symm
      subst hB2
      have hinv0 : MapInv [] (hdrBytes h) := by
        intro p hp
        simp at hp
      obtain ⟨⟨ext1, hr1⟩, hinv1, hdec1⟩ :=
        packQuestionsC_spec qs [] (hdrBytes h) r1 m1 hvq hinv0 hq1
      obtain ⟨⟨ext2, hcb⟩, hinv2, hdec2⟩ :=
        packAnswersC_spec as m1 r1 cbuf m2 hva hinv1 ha1
      have hr1len : r1.length ≤ cbuf.length := by
        rw [hcb]
        simp
      unfold unpack_allWithEnd
      rw [show cbuf.take 12 = (hdrBytes h ++ (ext1 ++ ext2)).take 12 by
        rw [hcb, hr1, List.append_assoc]]
      rw [from_buffer_hdrBytes h hvh (ext1 ++ ext2), except_bind_ok]
      try simp only []
      rw [hqd, show (12 : Nat) = (hdrBytes h).length from rfl]
      have hq := hdec1 ext2 fuel (le_trans hr1len hsmall)
        (by rw [← hcb]; exact hfuel)
      rw [← hcb] at hq
      rw [hq, except_bind_ok]
      try simp only []
      rw [han]
      have ha := hdec2 [] fuel hsmall (by simpa using hfuel)
      rw [List.append_nil] at ha
      rw [ha, except_bind_ok]
      try simp only []
      rw [optAns_of_count rfl]
      rfl

/-- C2 (corrected): for every valid message (header counts matching the
lists, names of 1-63 byte ASCII labels, numeric fields in range), unpacking
the uncompressed packing returns exactly the original header, questions and
answers, and unpacking the compressed packing does too — provided the
compressed packing is at most 16384 bytes.  The restriction is necessary:
`pack_all_compressed` emits `0xC000 | offset` pointers, which silently
truncate offsets of 16384 or more (see the counterexample). -/
theorem c2_roundtrip_amended (h : DNSHeader) (qs : List DNSQuestion)
    (as : List DNSAnswer) (hv : ValidMsg h qs as) :
    (∃ buf, pack_all_uncompressed h qs as = .ok buf ∧
        unpack_all buf (buf.length + 2) = .ok (h, qs, optAns as)) ∧
    (∀ cbuf, pack_all_compressed h qs as = .ok cbuf → cbuf.length ≤ 16384 →
        unpack_all cbuf (cbuf.length + 2) = .ok (h, qs, optAns as)) := by
  constructor
  · refine ⟨hdrBytes h ++ qsBytesU qs ++ asBytesU as,
      (pack_unpack_uncompressed h qs as hv).1, ?_⟩
    rw [unpack_all,
      (pack_unpack_uncompressed h qs as hv).2 _ (Nat.le_refl _)]
    rfl
  · intro cbuf hp hs
    rw [unpack_all,
      pack_unpack_compressed h qs as hv cbuf hp hs _ (Nat.le_refl _)]
    rfl

theorem c2_roundtrip_amended_witness :
    ValidMsg rtH [dqF] [daF] ∧
      pack_all_compressed rtH [dqF] [daF] = .ok rtBuf ∧
      rtBuf.length ≤ 16384 ∧
      unpack_all rtBuf (rtBuf.length + 2) = .ok (rtH, [dqF], optAns [daF]) := by
  have hv : ValidMsg rtH [dqF] [daF] := by decide
  exact ⟨hv, rfl, by decide,
    (c2_roundtrip_amended rtH [dqF] [daF] hv).2 rtBuf rfl (by decide)⟩

theorem cx_hdr_len : (hdrBytes cxh).length = 12 := rfl

theorem cx_n1_len : (encN cxa1.decoded_name).length = 3 := rfl

theorem cx_n2_len : (encN cxa2.decoded_name).length = 3 := rfl

theorem cx_f1_len : (aFieldBytes cxa1).length = 10 := rfl

theorem cx_f2_len : (aFieldBytes cxa2).length = 10 := rfl

theorem cx_f3_len : (aFieldBytes cxa3).length = 10 := rfl

theorem cx_ptr_len : (ptrBytes 17025).length = 2 := rfl

theorem cx_rd1 : cxa1.rdata = List.replicate 17000 0 := rfl

theorem cx_rd1_len : cxa1.rdata.length = 17000 := by
  rw [cx_rd1, List.length_replicate]

theorem cx_rd2_len : cxa2.rdata.length = 0 := rfl

theorem cx_rd3_len : cxa3.rdata.length = 0 := rfl

theorem cx_len1 :
    (hdrBytes cxh ++ (encN cxa1.decoded_name ++ (aFieldBytes cxa1 ++ cxa1.rdata))).length
      = 17025 := by
  simp only [List.length_append, cx_hdr_len, cx_n1_len, cx_f1_len, cx_rd1_len]

theorem cx_buf_len : cxBuf.length = 17050 := by
  simp only [cxBuf, List.length_append, cx_hdr_len, cx_n1_len, cx_n2_len, cx_f1_len,
    cx_f2_len, cx_f3_len, cx_ptr_len, cx_rd1_len, cx_rd2_len, cx_rd3_len]

theorem cx_rd1_split :
    cxa1.rdata = List.replicate 616 (0 : Nat) ++ (0 :: List.replicate 16383 0) := by
  rw [cx_rd1, show (0 : Nat) :: List.replicate 16383 (0 : Nat) =
    List.replicate 16384 (0 : Nat) from rfl, ← List.replicate_add]

theorem decode_zero_byte (buf pre post : List Nat) (f idx : Nat)
    (hbuf : buf = pre ++ 0 :: post) (hidx : idx = pre.length) :
    decodeNameGo buf (f + 1) idx [] [] = .ok ([], idx + 1) := by
  rw [decodeNameGo]
  rw [if_neg (show ¬ (idx ∈ ([] : List Nat)) by simp)]
  rw [getAt' hbuf hidx]
  dsimp only
  rw [if_pos rfl]
  rfl

theorem decode_ptrTrunc (buf pre post pre2 post2 : List Nat) (f : Nat)
    (hbuf : buf = pre ++ ptrBytes 17025 ++ post)
    (hz : buf = pre2 ++ 0 :: post2) (hz2 : pre2.length = 641) :
    decode_name buf pre.length (f + 2) = .ok ([], pre.length + 2) := by
  have hptr : ptrBytes 17025 = [194, 129] := by decide
  unfold decode_name
  rw [decodeNameGo]
  rw [if_neg (show ¬ (pre.length ∈ ([] : List Nat)) by simp)]
  rw [getAt' (show buf = pre ++ 194 :: (129 :: post) by rw [hbuf, hptr]; simp) rfl]
  dsimp only
  rw [if_neg (show ¬ ((194 : Nat) = 0) by decide)]
  rw [if_pos (show (194 : Nat) &&& 192 = 192 by decide)]
  rw [readExact_at hbuf rfl (show (2 : Nat) = (ptrBytes 17025).length from rfl)]
  dsimp only
  rw [hptr]
  rw [show (([194, 129] : List Nat).getD 0 0 * 256 +
    ([194, 129] : List Nat).getD 1 0) &&& 16383 = 641 from by decide]
  rw [decode_zero_byte buf pre2 post2 f 641 hz hz2.symm]
  dsimp only
  rfl

theorem cx_packed :
    pack_all_compressed cxh [] [cxa1, cxa2, cxa3] = .ok cxBuf := by
  rw [pack_all_compressed]
  rw [pack_eq_hdrBytes cxh (by decide), except_bind_ok]
  try simp only []
  rw [show packQuestionsC [] (hdrBytes cxh) [] =
    Except.ok ((hdrBytes cxh), ([] : List (List Char × Nat))) from rfl, except_bind_ok]
  dsimp only
  rw [packAnswersC]
  rw [show lookupName [] cxa1.decoded_name = (none : Option Nat) from rfl]
  dsimp only
  rw [encode_name_eq (show ValidName cxa1.decoded_name by decide), except_bind_ok]
  try simp only []
  rw [answer_pack_eq (show cxa1.type_ < 65536 by decide) (show cxa1.class_ < 65536 by decide)
      (show cxa1.ttl < 4294967296 by decide) (show cxa1.rdlength < 65536 by decide),
    except_bind_ok]
  try simp only []
  rw [List.nil_append]
  rw [packAnswersC]
  rw [show lookupName [(cxa1.decoded_name, (hdrBytes cxh).length)] cxa2.decoded_name
      = (none : Option Nat) from rfl]
  dsimp only
  rw [encode_name_eq (show ValidName cxa2.decoded_name by decide), except_bind_ok]
  try simp only []
  rw [answer_pack_eq (show cxa2.type_ < 65536 by decide) (show cxa2.class_ < 65536 by decide)
      (show cxa2.ttl < 4294967296 by decide) (show cxa2.rdlength < 65536 by decide),
    except_bind_ok]
  try simp only []
  rw [cx_len1]
  rw [List.singleton_append]
  rw [packAnswersC]
  rw [show lookupName
      [(cxa1.decoded_name, (hdrBytes cxh).length), (cxa2.decoded_name, 17025)]
      cxa3.decoded_name = some 17025 from rfl]
  dsimp only
  rw [show toBytes2 (0xC000 ||| 17025) = Except.ok (ptrBytes 17025) from rfl, except_bind_ok]
  try simp only []
  rw [answer_pack_eq (show cxa3.type_ < 65536 by decide) (show cxa3.class_ < 65536 by decide)
      (show cxa3.ttl < 4294967296 by decide) (show cxa3.rdlength < 65536 by decide),
    except_bind_ok]
  try simp only []
  rfl

theorem unpackAnswersGo_cons {buf : List Nat} {fuel idx n i1 e : Nat} {a : DNSAnswer}
    {as : List DNSAnswer}
    (h1 : unpackAnswer1 buf fuel idx = .ok (a, i1))
    (h2 : unpackAnswersGo buf fuel i1 n = .ok (as, e)) :
    unpackAnswersGo buf fuel idx (n + 1) = .ok (a :: as, e) := by
  rw [unpackAnswersGo]
  rw [h1, except_bind_ok]
  dsimp only
  rw [h2, except_bind_ok]
  rfl

theorem cx_unpacked :
    unpack_all cxBuf (cxBuf.length + 2) = .ok (cxh, [], some [cxa1, cxa2, cxa3Bad]) := by
  have hC : cxBuf = hdrBytes cxh ++
      ((encN cxa1.decoded_name ++ (aFieldBytes cxa1 ++ cxa1.rdata)) ++
        ((encN cxa2.decoded_name ++ (aFieldBytes cxa2 ++ cxa2.rdata)) ++
          (ptrBytes 17025 ++ (aFieldBytes cxa3 ++ cxa3.rdata)))) := by
    simp [cxBuf, List.append_assoc]
  have hfb : DNSHeader.from_buffer (cxBuf.take 12) = .ok cxh := by
    rw [hC]
    exact from_buffer_hdrBytes cxh (by decide) _
  have hname1 : decode_name cxBuf 12 (cxBuf.length + 2) = .ok (cxa1.decoded_name, 15) := by
    have h := decode_encN cxa1.decoded_name cxBuf (hdrBytes cxh)
      (aFieldBytes cxa1 ++ (cxa1.rdata ++
        ((encN cxa2.decoded_name ++ (aFieldBytes cxa2 ++ cxa2.rdata)) ++
          (ptrBytes 17025 ++ (aFieldBytes cxa3 ++ cxa3.rdata)))))
      (cxBuf.length + 2)
      (by simp [cxBuf, List.append_assoc])
      (by decide)
      (by rw [show (splitOnDot cxa1.decoded_name).length = 1 from rfl]; try omega)
    rw [cx_hdr_len, cx_n1_len] at h
    exact h
  have hans1 : unpackAnswer1 cxBuf (cxBuf.length + 2) 12 = .ok (cxa1, 17025) := by
    have h := unpackAnswer1_of cxa1 cxBuf 12 15 (cxBuf.length + 2) hname1
      (hdrBytes cxh ++ encN cxa1.decoded_name)
      ((encN cxa2.decoded_name ++ (aFieldBytes cxa2 ++ cxa2.rdata)) ++
        (ptrBytes 17025 ++ (aFieldBytes cxa3 ++ cxa3.rdata)))
      (by simp [cxBuf, List.append_assoc])
      (show (15 : Nat) = (hdrBytes cxh ++ encN cxa1.decoded_name).length from rfl)
      (by decide) (by decide) (by decide) (by decide)
      (by rw [cx_rd1, List.length_replicate]; rfl)
    rw [show (15 : Nat) + 10 + cxa1.rdlength = 17025 from by
      rw [show cxa1.rdlength = 17000 from rfl]] at h
    exact h
  have hname2 : decode_name cxBuf 17025 (cxBuf.length + 2) =
      .ok (cxa2.decoded_name, 17028) := by
    have h := decode_encN cxa2.decoded_name cxBuf
      (hdrBytes cxh ++ (encN cxa1.decoded_name ++ (aFieldBytes cxa1 ++ cxa1.rdata)))
      (aFieldBytes cxa2 ++ (cxa2.rdata ++
        (ptrBytes 17025 ++ (aFieldBytes cxa3 ++ cxa3.rdata))))
      (cxBuf.length + 2)
      (by simp [cxBuf, List.append_assoc])
      (by decide)
      (by rw [show (splitOnDot cxa2.decoded_name).length = 1 from rfl]; try omega)
    rw [cx_len1, cx_n2_len] at h
    exact h
  have hans2 : unpackAnswer1 cxBuf (cxBuf.length + 2) 17025 = .ok (cxa2, 17038) := by
    have h := unpackAnswer1_of cxa2 cxBuf 17025 17028 (cxBuf.length + 2) hname2
      ((hdrBytes cxh ++ (encN cxa1.decoded_name ++ (aFieldBytes cxa1 ++ cxa1.rdata))) ++
        encN cxa2.decoded_name)
      (ptrBytes 17025 ++ (aFieldBytes cxa3 ++ cxa3.rdata))
      (by simp [cxBuf, List.append_assoc])
      (by simp only [List.length_append, cx_hdr_len, cx_n1_len, cx_f1_len, cx_rd1_len,
        cx_n2_len]; try omega)
      (by decide) (by decide) (by decide) (by decide) (by rfl)
    rw [show (17028 : Nat) + 10 + cxa2.rdlength = 17038 from by
      rw [show cxa2.rdlength = 0 from rfl]] at h
    exact h
  have hname3 : decode_name cxBuf 17038 (cxBuf.length + 2) =
      .ok (cxa3Bad.decoded_name, 17040) := by
    have h := decode_ptrTrunc cxBuf
      ((hdrBytes cxh ++ (encN cxa1.decoded_name ++ (aFieldBytes cxa1 ++ cxa1.rdata))) ++
        (encN cxa2.decoded_name ++ (aFieldBytes cxa2 ++ cxa2.rdata)))
      (aFieldBytes cxa3 ++ cxa3.rdata)
      (hdrBytes cxh ++ (encN cxa1.decoded_name ++
        (aFieldBytes cxa1 ++ List.replicate 616 0)))
      (List.replicate 16383 0 ++
        ((encN cxa2.decoded_name ++ (aFieldBytes cxa2 ++ cxa2.rdata)) ++
          (ptrBytes 17025 ++ (aFieldBytes cxa3 ++ cxa3.rdata))))
      cxBuf.length
      (by simp [cxBuf, List.append_assoc])
      (by simp only [cxBuf, cx_rd1_split, List.append_assoc, List.cons_append])
      (by simp only [List.length_append, cx_hdr_len, cx_n1_len, cx_f1_len,
        List.length_replicate]; try omega)
    rw [show ((hdrBytes cxh ++ (encN cxa1.decoded_name ++ (aFieldBytes cxa1 ++ cxa1.rdata))) ++
        (encN cxa2.decoded_name ++ (aFieldBytes cxa2 ++ cxa2.rdata))).length = 17038 from by
      simp only [List.length_append, cx_hdr_len, cx_n1_len, cx_f1_len, cx_rd1_len,
        cx_n2_len, cx_f2_len, cx_rd2_len]; try omega] at h
    rw [show (17038 : Nat) + 2 = 17040 from rfl] at h
    exact h
  have hans3 : unpackAnswer1 cxBuf (cxBuf.length + 2) 17038 = .ok (cxa3Bad, 17050) := by
    have h := unpackAnswer1_of cxa3Bad cxBuf 17038 17040 (cxBuf.length + 2) hname3
      (((hdrBytes cxh ++ (encN cxa1.decoded_name ++ (aFieldBytes cxa1 ++ cxa1.rdata))) ++
        (encN cxa2.decoded_name ++ (aFieldBytes cxa2 ++ cxa2.rdata))) ++ ptrBytes 17025)
      ([])
      (by simp [cxBuf, List.append_assoc,
        show aFieldBytes cxa3Bad = aFieldBytes cxa3 from rfl,
        show cxa3Bad.rdata = cxa3.rdata from rfl])
      (by simp only [List.length_append, cx_hdr_len, cx_n1_len, cx_f1_len, cx_rd1_len,
        cx_n2_len, cx_f2_len, cx_rd2_len, cx_ptr_len]; try omega)
      (by decide) (by decide) (by decide) (by decide) (by rfl)
    rw [show (17040 : Nat) + 10 + cxa3Bad.rdlength = 17050 from by
      rw [show cxa3Bad.rdlength = 0 from rfl]] at h
    exact h
  have hgo0 : unpackAnswersGo cxBuf (cxBuf.length + 2) 17050 0 = .ok ([], 17050) := rfl
  have hgo3 : unpackAnswersGo cxBuf (cxBuf.length + 2) 17038 1 =
      .ok ([cxa3Bad], 17050) := unpackAnswersGo_cons hans3 hgo0
  have hgo2 : unpackAnswersGo cxBuf (cxBuf.length + 2) 17025 2 =
      .ok ([cxa2, cxa3Bad], 17050) := unpackAnswersGo_cons hans2 hgo3
  have hgo1 : unpackAnswersGo cxBuf (cxBuf.length + 2) 12 3 =
      .ok ([cxa1, cxa2, cxa3Bad], 17050) := unpackAnswersGo_cons hans1 hgo2
  have hwend : unpack_allWithEnd cxBuf (cxBuf.length + 2) =
      .ok (cxh, [], some [cxa1, cxa2, cxa3Bad], 17050) := by
    unfold unpack_allWithEnd
    rw [hfb, except_bind_ok]
    try simp only []
    rw [show cxh.qdcount = 0 from rfl]
    rw [show unpackQuestionsGo cxBuf (cxBuf.length + 2) 12 0 =
      Except.ok (([] : List DNSQuestion), 12) from rfl, except_bind_ok]
    dsimp only
    rw [show cxh.ancount = 3 from rfl]
    rw [hgo1, except_bind_ok]
    dsimp only
    rw [if_neg (show ¬ ((3 : Nat) = 0) by omega)]
    rfl
  rw [unpack_all, hwend]
  rfl

/-- C2 counterexample to the claim as stated: a valid message (header counts
match, names are 1-byte ASCII labels, all fields in range) whose compressed
packing succeeds but exceeds 16384 bytes.  The first occurrence of the name
`"y"` sits at offset 17025, so the pointer `0xC000 | 17025` emitted for the
third answer truncates to offset 641, which lands inside the first answer's
zero-filled rdata; unpacking therefore returns the empty name for the third
answer instead of `"y"`, refuting the unrestricted compressed round-trip. -/
theorem c2_pointer_truncation_counterexample :
    ValidMsg cxh [] [cxa1, cxa2, cxa3] ∧
      pack_all_compressed cxh [] [cxa1, cxa2, cxa3] = .ok cxBuf ∧
      16384 < cxBuf.length ∧
      unpack_all cxBuf (cxBuf.length + 2) = .ok (cxh, [], some [cxa1, cxa2, cxa3Bad]) ∧
      cxa3Bad.decoded_name ≠ cxa3.decoded_name := by
  refine ⟨⟨by decide, by simp, ?_, rfl, rfl⟩, cx_packed,
    by rw [cx_buf_len]; omega, cx_unpacked, by decide⟩
  intro a ha
  simp only [List.mem_cons, List.not_mem_nil, or_false] at ha
  rcases ha with h | h | h
  · subst h
    refine ⟨by decide, by decide, by decide, by decide, by decide,
      by rw [cx_rd1, List.length_replicate]; rfl, fun b hb => ?_⟩
    rw [cx_rd1] at hb
    rw [List.eq_of_mem_replicate hb]
    omega
  · subst h
    decide
  · subst h
    decide

theorem slice_ext (buf ext : List Nat) (idx k : Nat) (h : idx + k ≤ buf.length) :
    ((buf ++ ext).drop idx).take k = (buf.drop idx).take k := by
  rw [List.drop_append_eq_append_drop]
  rw [show idx - buf.length = 0 from by omega]
  rw [List.take_append_eq_append_take]
  rw [show k - (List.drop idx buf).length = 0 from by rw [List.length_drop]; omega]
  simp

theorem readExact_ext {buf : List Nat} (ext : List Nat) {idx k : Nat} {bs : List Nat}
    (h : readExact buf idx k = .ok bs) :
    readExact (buf ++ ext) idx k = .ok bs := by
  unfold readExact at h ⊢
  by_cases hle : idx + k ≤ buf.length
  · rw [if_pos hle] at h
    rw [if_pos (by rw [List.length_append]; omega)]
    rw [slice_ext buf ext idx k hle]
    exact h
  · rw [if_neg hle] at h
    exact absurd h (by simp)

theorem sliceDecodeAscii_ext {buf : List Nat} (ext : List Nat) {s k : Nat}
    (h : s + k ≤ buf.length) :
    sliceDecodeAscii (buf ++ ext) s k = sliceDecodeAscii buf s k := by
  unfold sliceDecodeAscii
  rw [slice_ext buf ext s k h]

theorem getAt_append {buf : List Nat} (ext : List Nat) {idx : Nat} (h : idx < buf.length) :
    (buf ++ ext)[idx]? = buf[idx]? := by
  rw [List.getElem?_append]
  rw [if_pos h]

theorem getSome_lt {buf : List Nat} {idx x : Nat} (h : buf[idx]? = some x) :
    idx < buf.length := by
  by_contra hc
  push_neg at hc
  rw [List.getElem?_eq_none hc] at h
  exact absurd h (by simp)

theorem take12_ext {buf : List Nat} (ext : List Nat) (h : 12 ≤ buf.length) :
    (buf ++ ext).take 12 = buf.take 12 := by
  rw [List.take_append_eq_append_take]
  rw [show 12 - buf.length = 0 from by omega]
  simp

theorem decodeNameGo_bounds {buf : List Nat} :
    ∀ fuel idx visited labels nm j,
      decodeNameGo buf fuel idx visited labels = .ok (nm, j) →
      idx < buf.length ∧ idx < j
  | 0, idx, v, l, nm, j, h => absurd h (by simp [decodeNameGo])
  | fuel + 1, idx, v, l, nm, j, h => by
    rw [decodeNameGo] at h
    by_cases hv : idx ∈ v
    · rw [if_pos hv] at h
      exact absurd h (by simp)
    · rw [if_neg hv] at h
      cases hb : buf[idx]? with
      | none => rw [hb] at h; exact absurd h (by simp)
      | some len =>
        rw [hb] at h
        dsimp only at h
        have hlt := getSome_lt hb
        by_cases h0 : len = 0
        · rw [if_pos h0] at h
          have h2 := (Except.ok.injEq _ _).mp h
          have hj : idx + 1 = j := congrArg Prod.snd h2
          exact ⟨hlt, by omega⟩
        · rw [if_neg h0] at h
          by_cases hp : len &&& 192 = 192
          · rw [if_pos hp] at h
            cases hre : readExact buf idx 2 with
            | error e => rw [hre] at h; exact absurd h (by simp)
            | ok bs =>
              rw [hre] at h
              dsimp only at h
              cases hrec : decodeNameGo buf fuel
                  ((bs.getD 0 0 * 256 + bs.getD 1 0) &&& 16383) [] [] with
              | error e => rw [hrec] at h; exact absurd h (by simp)
              | ok pr =>
                obtain ⟨dom, j2⟩ := pr
                rw [hrec] at h
                dsimp only at h
                have h2 := (Except.ok.injEq _ _).mp h
                have hj : idx + 2 = j := congrArg Prod.snd h2
                exact ⟨hlt, by omega⟩
          · rw [if_neg hp] at h
            cases hs : sliceDecodeAscii buf (idx + 1) len with
            | error e => rw [hs] at h; exact absurd h (by simp)
            | ok lbl =>
              rw [hs] at h
              dsimp only at h
              have ih := decodeNameGo_bounds fuel (idx + 1 + len) (idx :: v) (l ++ [lbl]) nm j h
              exact ⟨hlt, by omega⟩

theorem decodeNameGo_ext {buf : List Nat} (ext : List Nat) :
    ∀ fuel idx visited labels nm j,
      decodeNameGo buf fuel idx visited labels = .ok (nm, j) →
      decodeNameGo (buf ++ ext) fuel idx visited labels = .ok (nm, j)
  | 0, idx, v, l, nm, j, h => absurd h (by simp [decodeNameGo])
  | fuel + 1, idx, v, l, nm, j, h => by
    rw [decodeNameGo] at h
    rw [decodeNameGo]
    by_cases hv : idx ∈ v
    · rw [if_pos hv] at h
      exact absurd h (by simp)
    · rw [if_neg hv] at h
      rw [if_neg hv]
      cases hb : buf[idx]? with
      | none => rw [hb] at h; exact absurd h (by simp)
      | some len =>
        rw [hb] at h
        dsimp only at h
        rw [getAt_append ext (getSome_lt hb), hb]
        dsimp only
        by_cases h0 : len = 0
        · rw [if_pos h0] at h
          rw [if_pos h0]
          exact h
        · rw [if_neg h0] at h
          rw [if_neg h0]
          by_cases hp : len &&& 192 = 192
          · rw [if_pos hp] at h
            rw [if_pos hp]
            cases hre : readExact buf idx 2 with
            | error e => rw [hre] at h; exact absurd h (by simp)
            | ok bs =>
              rw [hre] at h
              dsimp only at h
              rw [readExact_ext ext hre]
              dsimp only
              cases hrec : decodeNameGo buf fuel
                  ((bs.getD 0 0 * 256 + bs.getD 1 0) &&& 16383) [] [] with
              | error e => rw [hrec] at h; exact absurd h (by simp)
              | ok pr =>
                obtain ⟨dom, j2⟩ := pr
                rw [hrec] at h
                dsimp only at h
                rw [decodeNameGo_ext ext fuel
                  ((bs.getD 0 0 * 256 + bs.getD 1 0) &&& 16383) [] [] dom j2 hrec]
                dsimp only
                exact h
          · rw [if_neg hp] at h
            rw [if_neg hp]
            cases hs : sliceDecodeAscii buf (idx + 1) len with
            | error e => rw [hs] at h; exact absurd h (by simp)
            | ok lbl =>
              rw [hs] at h
              dsimp only at h
              have hb2 := (decodeNameGo_bounds fuel (idx + 1 + len) (idx :: v)
                (l ++ [lbl]) nm j h).1
              rw [sliceDecodeAscii_ext ext (by omega), hs]
              dsimp only
              exact decodeNameGo_ext ext fuel (idx + 1 + len) (idx :: v) (l ++ [lbl]) nm j h

theorem decode_name_ext {buf : List Nat} (ext : List Nat) {idx fuel : Nat}
    {nm : List Char} {j : Nat} (h : decode_name buf idx fuel = .ok (nm, j)) :
    decode_name (buf ++ ext) idx fuel = .ok (nm, j) := by
  unfold decode_name at h ⊢
  exact decodeNameGo_ext ext fuel idx [] [] nm j h

theorem decode_name_gt {buf : List Nat} {idx fuel : Nat} {nm : List Char} {j : Nat}
    (h : decode_name buf idx fuel = .ok (nm, j)) : idx < j := by
  unfold decode_name at h
  exact (decodeNameGo_bounds fuel idx [] [] nm j h).2

theorem unpackQuestion1_ext {buf : List Nat} (ext : List Nat) {fuel idx : Nat}
    {q : DNSQuestion} {i2 : Nat}
    (h : unpackQuestion1 buf fuel idx = .ok (q, i2)) :
    unpackQuestion1 (buf ++ ext) fuel idx = .ok (q, i2) := by
  unfold unpackQuestion1 at h ⊢
  cases hd : decode_name buf idx fuel with
  | error e => rw [hd, except_bind_error] at h; exact absurd h (by simp)
  | ok p =>
    obtain ⟨nm, i1⟩ := p
    rw [hd, except_bind_ok] at h
    dsimp only at h
    rw [decode_name_ext ext hd, except_bind_ok]
    dsimp only
    cases hre : readExact buf i1 4 with
    | error e => rw [hre, except_bind_error] at h; exact absurd h (by simp)
    | ok tc =>
      rw [hre, except_bind_ok] at h
      rw [readExact_ext ext hre, except_bind_ok]
      exact h

theorem unpackQuestionsGo_cons {buf : List Nat} {fuel idx n i1 e : Nat} {q : DNSQuestion}
    {qs : List DNSQuestion}
    (h1 : unpackQuestion1 buf fuel idx = .ok (q, i1))
    (h2 : unpackQuestionsGo buf fuel i1 n = .ok (qs, e)) :
    unpackQuestionsGo buf fuel idx (n + 1) = .ok (q :: qs, e) := by
  rw [unpackQuestionsGo]
  rw [h1, except_bind_ok]
  dsimp only
  rw [h2, except_bind_ok]
  rfl

theorem unpackQuestionsGo_len :
    ∀ (n : Nat) (buf : List Nat) (fuel idx : Nat) (qs : List DNSQuestion) (e : Nat),
      unpackQuestionsGo buf fuel idx n = .ok (qs, e) → qs.length = n
  | 0, buf, fuel, idx, qs, e, h => by
    have h2 : (Except.ok (([] : List DNSQuestion), idx) :
        Except Err (List DNSQuestion × Nat)) = .ok (qs, e) := h
    have h3 := (Except.ok.injEq _ _).mp h2
    have hq : ([] : List DNSQuestion) = qs := congrArg Prod.fst h3
    rw [← hq]
    rfl
  | n + 1, buf, fuel, idx, qs, e, h => by
    rw [unpackQuestionsGo] at h
    cases h1 : unpackQuestion1 buf fuel idx with
    | error e0 => rw [h1, except_bind_error] at h; exact absurd h (by simp)
    | ok p =>
      obtain ⟨q, i1⟩ := p
      rw [h1, except_bind_ok] at h
      dsimp only at h
      cases h2 : unpackQuestionsGo buf fuel i1 n with
      | error e0 => rw [h2, except_bind_error] at h; exact absurd h (by simp)
      | ok p2 =>
        obtain ⟨qs2, e2⟩ := p2
        rw [h2, except_bind_ok] at h
        dsimp only at h
        have h3 := (Except.ok.injEq _ _).mp h
        have hq : q :: qs2 = qs := congrArg Prod.fst h3
        have ih := unpackQuestionsGo_len n buf fuel i1 qs2 e2 h2
        rw [← hq, List.length_cons, ih]

theorem unpackQuestionsGo_ext {buf : List Nat} (ext : List Nat) (fuel : Nat) :
    ∀ (n idx : Nat) (qs : List DNSQuestion) (e : Nat),
      unpackQuestionsGo buf fuel idx n = .ok (qs, e) →
      unpackQuestionsGo (buf ++ ext) fuel idx n = .ok (qs, e)
  | 0, idx, qs, e, h => h
  | n + 1, idx, qs, e, h => by
    rw [unpackQuestionsGo] at h
    cases h1 : unpackQuestion1 buf fuel idx with
    | error e0 => rw [h1, except_bind_error] at h; exact absurd h (by simp)
    | ok p =>
      obtain ⟨q, i1⟩ := p
      rw [h1, except_bind_ok] at h
      try dsimp only at h
      cases h2 : unpackQuestionsGo buf fuel i1 n with
      | error e0 => rw [h2, except_bind_error] at h; exact absurd h (by simp)
      | ok p2 =>
        obtain ⟨qs2, e2⟩ := p2
        rw [h2, except_bind_ok] at h
        try dsimp only at h
        have h3 := (Except.ok.injEq _ _).mp h
        have hq : q :: qs2 = qs := congrArg Prod.fst h3
        have he : e2 = e := congrArg Prod.snd h3
        rw [← hq, ← he]
        exact unpackQuestionsGo_cons (unpackQuestion1_ext ext h1)
          (unpackQuestionsGo_ext ext fuel n i1 qs2 e2 h2)

theorem unpackAnswer1_gt {buf : List Nat} {fuel idx : Nat} {a : DNSAnswer} {i2 : Nat}
    (h : unpackAnswer1 buf fuel idx = .ok (a, i2)) : idx < i2 := by
  unfold unpackAnswer1 at h
  cases hd : decode_name buf idx fuel with
  | error e => rw [hd, except_bind_error] at h; exact absurd h (by simp)
  | ok p =>
    obtain ⟨nm, i1⟩ := p
    rw [hd, except_bind_ok] at h
    try dsimp only at h
    have hgt := decode_name_gt hd
    cases h4 : readExact buf i1 4 with
    | error e => rw [h4, except_bind_error] at h; exact absurd h (by simp)
    | ok tc =>
      rw [h4, except_bind_ok] at h
      try dsimp only at h
      cases h8 : readExact buf (i1 + 4) 4 with
      | error e => rw [h8, except_bind_error] at h; exact absurd h (by simp)
      | ok ttlb =>
        rw [h8, except_bind_ok] at h
        try dsimp only at h
        cases hA : readExact buf (i1 + 8) 2 with
        | error e => rw [hA, except_bind_error] at h; exact absurd h (by simp)
        | ok rdl =>
          rw [hA, except_bind_ok] at h
          try dsimp only at h
          have h2 := (Except.ok.injEq _ _).mp h
          have hi2 : i1 + 10 + beWord (rdl.getD 0 0) (rdl.getD 1 0) = i2 :=
            congrArg Prod.snd h2
          omega

theorem unpackAnswer1_ext {buf : List Nat} (ext : List Nat) {fuel idx : Nat}
    {a : DNSAnswer} {i2 : Nat}
    (h : unpackAnswer1 buf fuel idx = .ok (a, i2)) (hle : i2 ≤ buf.length) :
    unpackAnswer1 (buf ++ ext) fuel idx = .ok (a, i2) := by
  unfold unpackAnswer1 at h ⊢
  cases hd : decode_name buf idx fuel with
  | error e => rw [hd, except_bind_error] at h; exact absurd h (by simp)
  | ok p =>
    obtain ⟨nm, i1⟩ := p
    rw [hd, except_bind_ok] at h
    try dsimp only at h
    rw [decode_name_ext ext hd, except_bind_ok]
    try dsimp only
    cases h4 : readExact buf i1 4 with
    | error e => rw [h4, except_bind_error] at h; exact absurd h (by simp)
    | ok tc =>
      rw [h4, except_bind_ok] at h
      try dsimp only at h
      rw [readExact_ext ext h4, except_bind_ok]
      try dsimp only
      cases h8 : readExact buf (i1 + 4) 4 with
      | error e => rw [h8, except_bind_error] at h; exact absurd h (by simp)
      | ok ttlb =>
        rw [h8, except_bind_ok] at h
        try dsimp only at h
        rw [readExact_ext ext h8, except_bind_ok]
        try dsimp only
        cases hA : readExact buf (i1 + 8) 2 with
        | error e => rw [hA, except_bind_error] at h; exact absurd h (by simp)
        | ok rdl =>
          rw [hA, except_bind_ok] at h
          try dsimp only at h
          rw [readExact_ext ext hA, except_bind_ok]
          try dsimp only
          have h2 := (Except.ok.injEq _ _).mp h
          have hi2 : i1 + 10 + beWord (rdl.getD 0 0) (rdl.getD 1 0) = i2 :=
            congrArg Prod.snd h2
          rw [slice_ext buf ext (i1 + 10) (beWord (rdl.getD 0 0) (rdl.getD 1 0))
            (by omega)]
          exact h

theorem unpackAnswersGo_mono :
    ∀ (n : Nat) {buf : List Nat} {fuel idx : Nat} {as : List DNSAnswer} {e : Nat},
      unpackAnswersGo buf fuel idx n = .ok (as, e) → idx ≤ e
  | 0, buf, fuel, idx, as, e, h => by
    have h2 : (Except.ok (([] : List DNSAnswer), idx) :
        Except Err (List DNSAnswer × Nat)) = .ok (as, e) := h
    have h3 := (Except.ok.injEq _ _).mp h2
    have he : idx = e := congrArg Prod.snd h3
    omega
  | n + 1, buf, fuel, idx, as, e, h => by
    rw [unpackAnswersGo] at h
    cases h1 : unpackAnswer1 buf fuel idx with
    | error e0 => rw [h1, except_bind_error] at h; exact absurd h (by simp)
    | ok p =>
      obtain ⟨a, i1⟩ := p
      rw [h1, except_bind_ok] at h
      try dsimp only at h
      cases h2 : unpackAnswersGo buf fuel i1 n with
      | error e0 => rw [h2, except_bind_error] at h; exact absurd h (by simp)
      | ok p2 =>
        obtain ⟨as2, e2⟩ := p2
        rw [h2, except_bind_ok] at h
        try dsimp only at h
        have h3 := (Except.ok.injEq _ _).mp h
        have he : e2 = e := congrArg Prod.snd h3
        have hgt := unpackAnswer1_gt h1
        have ih := unpackAnswersGo_mono n h2
        omega

theorem unpackAnswersGo_len :
    ∀ (n : Nat) (buf : List Nat) (fuel idx : Nat) (as : List DNSAnswer) (e : Nat),
      unpackAnswersGo buf fuel idx n = .ok (as, e) → as.length = n
  | 0, buf, fuel, idx, as, e, h => by
    have h2 : (Except.ok (([] : List DNSAnswer), idx) :
        Except Err (List DNSAnswer × Nat)) = .ok (as, e) := h
    have h3 := (Except.ok.injEq _ _).mp h2
    have hq : ([] : List DNSAnswer) = as := congrArg Prod.fst h3
    rw [← hq]
    rfl
  | n + 1, buf, fuel, idx, as, e, h => by
    rw [unpackAnswersGo] at h
    cases h1 : unpackAnswer1 buf fuel idx with
    | error e0 => rw [h1, except_bind_error] at h; exact absurd h (by simp)
    | ok p =>
      obtain ⟨a, i1⟩ := p
      rw [h1, except_bind_ok] at h
      dsimp only at h
      cases h2 : unpackAnswersGo buf fuel i1 n with
      | error e0 => rw [h2, except_bind_error] at h; exact absurd h (by simp)
      | ok p2 =>
        obtain ⟨as2, e2⟩ := p2
        rw [h2, except_bind_ok] at h
        dsimp only at h
        have h3 := (Except.ok.injEq _ _).mp h
        have hq : a :: as2 = as := congrArg Prod.fst h3
        have ih := unpackAnswersGo_len n buf fuel i1 as2 e2 h2
        rw [← hq, List.length_cons, ih]

theorem unpackAnswersGo_ext {buf : List Nat} (ext : List Nat) (fuel : Nat) :
    ∀ (n idx : Nat) (as : List DNSAnswer) (e : Nat),
      unpackAnswersGo buf fuel idx n = .ok (as, e) → e ≤ buf.length →
      unpackAnswersGo (buf ++ ext) fuel idx n = .ok (as, e)
  | 0, idx, as, e, h, _ => h
  | n + 1, idx, as, e, h, hle => by
    rw [unpackAnswersGo] at h
    cases h1 : unpackAnswer1 buf fuel idx with
    | error e0 => rw [h1, except_bind_error] at h; exact absurd h (by simp)
    | ok p =>
      obtain ⟨a, i1⟩ := p
      rw [h1, except_bind_ok] at h
      dsimp only at h
      cases h2 : unpackAnswersGo buf fuel i1 n with
      | error e0 => rw [h2, except_bind_error] at h; exact absurd h (by simp)
      | ok p2 =>
        obtain ⟨as2, e2⟩ := p2
        rw [h2, except_bind_ok] at h
        dsimp only at h
        have h3 := (Except.ok.injEq _ _).mp h
        have hq : a :: as2 = as := congrArg Prod.fst h3
        have he : e2 = e := congrArg Prod.snd h3
        have hm := unpackAnswersGo_mono n h2
        rw [← hq, ← he]
        exact unpackAnswersGo_cons (unpackAnswer1_ext ext h1 (by omega))
          (unpackAnswersGo_ext ext fuel n i1 as2 e2 h2 (by omega))

theorem getD_take_lt {l : List Nat} {i n : Nat} (h : i < n) (d : Nat) :
    (l.take n).getD i d = l.getD i d := by
  rw [List.getD_eq_getElem?_getD, List.getD_eq_getElem?_getD]
  rw [List.getElem?_take, if_pos h]

theorem from_buffer_inv {c : List Nat} {hd : DNSHeader}
    (h : DNSHeader.from_buffer c = .ok hd) :
    12 ≤ c.length ∧ hd.qdcount = beWord (c.getD 4 0) (c.getD 5 0) ∧
      hd.ancount = beWord (c.getD 6 0) (c.getD 7 0) ∧
      hd.nscount = beWord (c.getD 8 0) (c.getD 9 0) ∧
      hd.arcount = beWord (c.getD 10 0) (c.getD 11 0) := by
  unfold DNSHeader.from_buffer at h
  by_cases hc : 12 ≤ (c.take 12).length
  · rw [if_pos hc] at h
    try dsimp only at h
    have hlen : 12 ≤ c.length := by
      rw [List.length_take] at hc
      omega
    have h2 := (Except.ok.injEq _ _).mp h
    refine ⟨hlen, ?_, ?_, ?_, ?_⟩
    · rw [← h2]
      dsimp only
      rw [getD_take_lt (show (4 : Nat) < 12 by omega), getD_take_lt (show (5 : Nat) < 12 by omega)]
    · rw [← h2]
      dsimp only
      rw [getD_take_lt (show (6 : Nat) < 12 by omega), getD_take_lt (show (7 : Nat) < 12 by omega)]
    · rw [← h2]
      dsimp only
      rw [getD_take_lt (show (8 : Nat) < 12 by omega), getD_take_lt (show (9 : Nat) < 12 by omega)]
    · rw [← h2]
      dsimp only
      rw [getD_take_lt (show (10 : Nat) < 12 by omega), getD_take_lt (show (11 : Nat) < 12 by omega)]
  · rw [if_neg hc] at h
    exact absurd h (by simp)

/-- C10: on every buffer that unpacks successfully, `unpack_all` returns
exactly `qdcount` question records, the answers component is `none` exactly
when `ancount = 0` and otherwise holds exactly `ancount` answer records;
authority and additional records are never parsed: the returned header's
`nscount` and `arcount` are just the big-endian words at bytes 8-11 of the
wire, preserved unchanged, and any bytes after the answer section (such as
authority or additional records) are silently ignored — appending arbitrary
trailing bytes leaves the parse result unchanged whenever the parse ended
within the buffer. -/
theorem c10_counts_and_trailing (buf ext : List Nat) (fuel : Nat) (h : DNSHeader)
    (qs : List DNSQuestion) (ao : Option (List DNSAnswer)) (e : Nat)
    (hok : unpack_allWithEnd buf fuel = .ok (h, qs, ao, e)) :
    qs.length = h.qdcount ∧
      (ao = none ↔ h.ancount = 0) ∧
      (ao.getD []).length = h.ancount ∧
      h.nscount = beWord (buf.getD 8 0) (buf.getD 9 0) ∧
      h.arcount = beWord (buf.getD 10 0) (buf.getD 11 0) ∧
      unpack_all buf fuel = .ok (h, qs, ao) ∧
      (e ≤ buf.length →
        unpack_allWithEnd (buf ++ ext) fuel = .ok (h, qs, ao, e) ∧
        unpack_all (buf ++ ext) fuel = .ok (h, qs, ao)) := by
  have hw := hok
  unfold unpack_allWithEnd at hw
  cases hfb : DNSHeader.from_buffer (buf.take 12) with
  | error e0 => rw [hfb, except_bind_error] at hw; exact absurd hw (by simp)
  | ok hd =>
    rw [hfb, except_bind_ok] at hw
    try dsimp only at hw
    cases hq : unpackQuestionsGo buf fuel 12 hd.qdcount with
    | error e0 => rw [hq, except_bind_error] at hw; exact absurd hw (by simp)
    | ok p1 =>
      obtain ⟨qs1, i1⟩ := p1
      rw [hq, except_bind_ok] at hw
      try dsimp only at hw
      cases ha : unpackAnswersGo buf fuel i1 hd.ancount with
      | error e0 => rw [ha, except_bind_error] at hw; exact absurd hw (by simp)
      | ok p2 =>
        obtain ⟨as1, e1⟩ := p2
        rw [ha, except_bind_ok] at hw
        try dsimp only at hw
        have h2 : (hd, qs1, (if hd.ancount = 0 then (none : Option (List DNSAnswer))
            else some as1), e1) = (h, qs, ao, e) := (Except.ok.injEq _ _).mp hw
        simp only [Prod.mk.injEq] at h2
        obtain ⟨hh, hqs, hao, he⟩ := h2
        subst hh
        subst hqs
        subst hao
        subst he
        obtain ⟨hinvlen, hqdw, hanw, hnsw, harw⟩ := from_buffer_inv hfb
        have h12 : 12 ≤ buf.length := by
          rw [List.length_take] at hinvlen
          omega
        refine ⟨unpackQuestionsGo_len _ _ _ _ _ _ hq, ?_, ?_, ?_, ?_, ?_, ?_⟩
        · by_cases hz : hd.ancount = 0
          · rw [if_pos hz]
            simp [hz]
          · rw [if_neg hz]
            simp [hz]
        · by_cases hz : hd.ancount = 0
          · rw [if_pos hz, hz]
            rfl
          · rw [if_neg hz]
            exact unpackAnswersGo_len _ _ _ _ _ _ ha
        · rw [hnsw, getD_take_lt (show (8 : Nat) < 12 by omega),
            getD_take_lt (show (9 : Nat) < 12 by omega)]
        · rw [harw, getD_take_lt (show (10 : Nat) < 12 by omega),
            getD_take_lt (show (11 : Nat) < 12 by omega)]
        · rw [unpack_all, hok]
          rfl
        · intro hE
          have hextW : unpack_allWithEnd (buf ++ ext) fuel =
              .ok (hd, qs1, (if hd.ancount = 0 then none else some as1), e1) := by
            unfold unpack_allWithEnd
            rw [take12_ext ext h12, hfb, except_bind_ok]
            try dsimp only
            rw [unpackQuestionsGo_ext ext fuel hd.qdcount 12 qs1 i1 hq, except_bind_ok]
            try dsimp only
            rw [unpackAnswersGo_ext ext fuel hd.ancount i1 as1 e1 ha hE, except_bind_ok]
            rfl
          exact ⟨hextW, by rw [unpack_all, hextW]; rfl⟩

theorem c10_counts_and_trailing_witness :
    unpack_allWithEnd c10Buf 40 = .ok (c10H, [dqF], some [daF], 36) ∧
      36 ≤ c10Buf.length ∧
      ([dqF].length = c10H.qdcount ∧
        (some [daF] = none ↔ c10H.ancount = 0) ∧
        ((some [daF]).getD []).length = c10H.ancount ∧
        c10H.nscount = beWord (c10Buf.getD 8 0) (c10Buf.getD 9 0) ∧
        c10H.arcount = beWord (c10Buf.getD 10 0) (c10Buf.getD 11 0) ∧
        unpack_all c10Buf 40 = .ok (c10H, [dqF], some [daF]) ∧
        (36 ≤ c10Buf.length →
          unpack_allWithEnd (c10Buf ++ [9, 9, 9]) 40 = .ok (c10H, [dqF], some [daF], 36) ∧
          unpack_all (c10Buf ++ [9, 9, 9]) 40 = .ok (c10H, [dqF], some [daF]))) := by
  have hok : unpack_allWithEnd c10Buf 40 = .ok (c10H, [dqF], some [daF], 36) := by rfl
  exact ⟨hok, by decide,
    c10_counts_and_trailing c10Buf [9, 9, 9] 40 c10H [dqF] (some [daF]) 36 hok⟩
